import Mathlib

/-!
Verification development for the elf32 string-table replacement tool.

The program rewrites string tables inside 32-bit ELF binaries and patches
every structure that references the moved strings.  The definitions below
shallowly embed the core functions of the source file
(doReplacements, processReplacements, fileOffsetToVirtualAddress,
relocateStringTables, replaceSingleOffset, getReplacementTable, the
reference-patching passes and the run orchestrator).  Machine integers are
modelled as Nat with an explicit reduction modulo 2 ^ 32 (or 2 ^ 16)
wherever the Go code performs uint32 (or uint16) arithmetic.  Raw file
bytes are modelled as List Nat.  The external object-model collaborator
(package elf_reader) is out of scope of the source; its primitives are
modelled from the spec where the core consumes them, with doc comments
saying so.  The endianness is instantiated as little-endian.
-/

/-- Modulus of 32-bit unsigned arithmetic. -/
def m32 : Nat := 4294967296

/-- Wrapping 32-bit addition. -/
def add32 (a b : Nat) : Nat := (a + b) % m32

/-- Wrapping 32-bit subtraction. -/
def sub32 (a b : Nat) : Nat := (a % m32 + m32 - b % m32) % m32

/-- Wrapping 32-bit multiplication. -/
def mul32 (a b : Nat) : Nat := (a * b) % m32

/-- Byte of a buffer at a position, 0 when out of range. -/
def byteAt (raw : List Nat) (p : Nat) : Nat := raw.getD p 0

/-- Little-endian bytes of a 32-bit value. -/
def le32Bytes (v : Nat) : List Nat :=
  [v % 256, v / 256 % 256, v / 65536 % 256, v / 16777216 % 256]

/-- Little-endian bytes of a 16-bit value. -/
def le16Bytes (v : Nat) : List Nat := [v % 256, v / 256 % 256]

/-- Little-endian 32-bit read at a position of a buffer. -/
def readLE32 (raw : List Nat) (p : Nat) : Nat :=
  byteAt raw p + 256 * byteAt raw (p + 1) + 65536 * byteAt raw (p + 2) +
    16777216 * byteAt raw (p + 3)

/-- The window of n bytes of a buffer starting at a position. -/
def chunkN (raw : List Nat) (off n : Nat) : List Nat :=
  (List.range n).map (fun k => byteAt raw (off + k))

/-- Modelled from the spec: elf_reader.WriteAtOffset, the object-model
primitive that writes serialized bytes at a byte offset of the raw buffer,
extending the buffer when the write reaches past the current end (the
relocator writes the new program header table at the end of file through
this primitive). -/
def writeBytesAt (raw : List Nat) (off : Nat) (bs : List Nat) : List Nat :=
  let pdd := raw ++ List.replicate (off - raw.length) 0
  pdd.take off ++ bs ++ pdd.drop (off + bs.length)

/-- One string that was replaced, with old and new offsets into the string
table (struct replacedString of the source). -/
structure replacedString where
  originalOffset : Nat
  newOffset : Nat
deriving DecidableEq, Repr

/-- One updated string table (struct replacedStringTable of the source). -/
structure replacedStringTable where
  oldContent : List Nat
  newContent : List Nat
  oldFileOffset : Nat
  newFileOffset : Nat
  oldVirtualAddress : Nat
  newVirtualAddress : Nat
  sectionIndex : Nat
  replacements : List replacedString
deriving DecidableEq, Repr

/-- Errors signalled by the embedded core, one constructor per error site
of the source (error messages are dropped, identity of the site kept). -/
inductive Err where
  | invalidReadOffset : Nat → Err
  | readFailed : Err
  | valueOutOfRange : Nat → Nat → Err
  | failedReadingSection : Nat → Err
  | failedReplacingSection : Nat → Err
  | invalidSectionIndex : Nat → Err
  | endVACalc : Err
  | reparseFailed : Err
deriving DecidableEq, Repr

/-- Result of a Go call that can also crash with a runtime panic (used for
index-out-of-range accesses that the Go runtime turns into a panic). -/
inductive GRes (α : Type) where
  | ok : α → GRes α
  | err : Err → GRes α
  | crashed : GRes α
deriving DecidableEq, Repr

/-- True exactly on a successful result. -/
def GRes.isOk {α : Type} : GRes α → Bool
  | .ok _ => true
  | _ => false

/-- Splitting a byte buffer at every NUL byte, keeping empty pieces, as
strings.Split of the Go standard library does on the separator byte 0. -/
def splitOnNul : List Nat → List (List Nat)
  | [] => [[]]
  | b :: rest =>
    if b = 0 then [] :: splitOnNul rest
    else
      match splitOnNul rest with
      | [] => [[b]]
      | s :: ss => (b :: s) :: ss

/-- The loop body of doReplacements: walks the NUL-split pieces keeping the
running original-offset cursor (uint32), the new content buffer and the
accumulated replacement records.  The substitution rule of the regex and
replacement template is abstracted as the function repl on byte strings. -/
def doRepLoop (repl : List Nat → List Nat) :
    List (List Nat) → Nat → List Nat → List replacedString →
    List replacedString × List Nat
  | [], _, newContent, acc => (acc, newContent)
  | p :: rest, cursor, newContent, acc =>
    let np := repl p
    let cursor' := (cursor + p.length + 1) % m32
    if np = p then doRepLoop repl rest cursor' newContent acc
    else
      doRepLoop repl rest cursor' (newContent ++ np ++ [0])
        (acc ++ [⟨cursor, newContent.length % m32⟩])

/-- Method doReplacements of the source: computes the replacement records
and the new content of one string table.  The Go method returns a nil
error on every path; a zero-change table leaves the two fields nil, which
is modelled by the result none. -/
def doReplacements (repl : List Nat → List Nat) (oldContent : List Nat) :
    Except Err (Option (List replacedString × List Nat)) :=
  let r := doRepLoop repl (splitOnNul oldContent) 0 oldContent []
  if r.1.isEmpty then .ok none else .ok (some r)

/-- The strings appended at the tail of a changed table: for every piece
changed by the substitution, the replaced bytes followed by a NUL. -/
def appendedTail (repl : List Nat → List Nat) (pieces : List (List Nat)) :
    List Nat :=
  ((pieces.filter (fun p => !(repl p = p : Bool))).map
    (fun p => repl p ++ [0])).flatten

/-- Total number of bytes the offset cursor advances over a piece list. -/
def pieceLens (pieces : List (List Nat)) : Nat :=
  (pieces.map (fun p => p.length + 1)).sum

/-- Scenario table with the two library names of the spec scenario. -/
def libcBytes : List Nat := [108, 105, 98, 99, 46, 115, 111, 46, 54]

/-- Second entry of the scenario table. -/
def libmBytes : List Nat := [108, 105, 98, 109, 46, 115, 111, 46, 54]

/-- Replacement string of the scenario. -/
def libshimBytes : List Nat :=
  [108, 105, 98, 115, 104, 105, 109, 46, 115, 111, 46, 49]

/-- The scenario string table content, NUL-joined, offsets 0 and 10. -/
def scOld : List Nat := libcBytes ++ [0] ++ libmBytes ++ [0]

/-- The scenario substitution rule: rewrite exactly the first name. -/
def scRepl : List Nat → List Nat :=
  fun p => if p = libcBytes then libshimBytes else p

/-- Section header of the object model (struct ELF32SectionHeader of the
elf_reader collaborator), field order as serialized: name, type, flags,
virtual address, file offset, size, linked index, info, align, entry
size; every field is a uint32 of the binary format. -/
structure ELF32SectionHeader where
  name : Nat
  typ : Nat
  flags : Nat
  virtualAddress : Nat
  fileOffset : Nat
  size : Nat
  linkedIndex : Nat
  info : Nat
  align : Nat
  entrySize : Nat
deriving DecidableEq, Repr

/-- Program header of the object model (struct ELF32ProgramHeader of the
elf_reader collaborator), serialized field order: type, file offset,
virtual address, physical address, file size, memory size, flags, align. -/
structure ELF32ProgramHeader where
  typ : Nat
  fileOffset : Nat
  virtualAddress : Nat
  physicalAddress : Nat
  fileSize : Nat
  memorySize : Nat
  flags : Nat
  align : Nat
deriving DecidableEq, Repr

/-- The ELF header fields the core reads: the section header table file
offset and the index of the section-name string table. -/
structure ELF32Header where
  sectionHeaderOffset : Nat
  sectionNamesTable : Nat
deriving DecidableEq, Repr

/-- The parsed object model: raw bytes plus the typed views over them. -/
structure ELF32File where
  raw : List Nat
  header : ELF32Header
  sections : List ELF32SectionHeader
  segments : List ELF32ProgramHeader
deriving DecidableEq, Repr

/-- Segment type of a loadable segment (elf_reader.LoadableSegment). -/
def loadableSegmentType : Nat := 1

/-- Segment type of the self-referential program header table segment
(elf_reader.ProgramHeaderSegment). -/
def programHeaderSegmentType : Nat := 6

/-- Modelled from the spec: the object-model classification of a string
table section (elf_reader IsStringTable), by section type. -/
def isStringTable (s : ELF32SectionHeader) : Bool := s.typ == 3

/-- Modelled from the spec: the object-model classification of a symbol
table section (elf_reader IsSymbolTable), by section type. -/
def isSymbolTable (s : ELF32SectionHeader) : Bool := s.typ == 2 || s.typ == 11

/-- Modelled from the spec: the object-model classification of the dynamic
linking table section (elf_reader IsDynamicSection). -/
def isDynamicSection (s : ELF32SectionHeader) : Bool := s.typ == 6

/-- Modelled from the spec: the object-model classification of the GNU
version requirement section (elf_reader IsVersionRequirementSection). -/
def isVersionRequirementSection (s : ELF32SectionHeader) : Bool :=
  s.typ == 1879048190

/-- Serialized bytes of one section header, 40 bytes little-endian. -/
def serializeSectionHeader (s : ELF32SectionHeader) : List Nat :=
  le32Bytes s.name ++ le32Bytes s.typ ++ le32Bytes s.flags ++
    le32Bytes s.virtualAddress ++ le32Bytes s.fileOffset ++
    le32Bytes s.size ++ le32Bytes s.linkedIndex ++ le32Bytes s.info ++
    le32Bytes s.align ++ le32Bytes s.entrySize

/-- Serialized bytes of the whole section header table. -/
def serializeSections (l : List ELF32SectionHeader) : List Nat :=
  (l.map serializeSectionHeader).flatten

/-- Serialized bytes of one program header, 32 bytes little-endian. -/
def serializeProgramHeader (p : ELF32ProgramHeader) : List Nat :=
  le32Bytes p.typ ++ le32Bytes p.fileOffset ++ le32Bytes p.virtualAddress ++
    le32Bytes p.physicalAddress ++ le32Bytes p.fileSize ++
    le32Bytes p.memorySize ++ le32Bytes p.flags ++ le32Bytes p.align

/-- Serialized bytes of the whole program header table. -/
def serializeSegments (l : List ELF32ProgramHeader) : List Nat :=
  (l.map serializeProgramHeader).flatten

/-- Modelled from the spec: the object-model read of the bytes of a section
(elf_reader GetSectionContent): the slice of the raw buffer described by
the section header, failing when it reaches out of bounds. -/
def getSectionContent (raw : List Nat) (s : ELF32SectionHeader) :
    Option (List Nat) :=
  if s.fileOffset + s.size ≤ raw.length then
    some ((raw.drop s.fileOffset).take s.size)
  else none

/-- The section walk of processReplacements over the indexed section list:
for every string table section, read its content, run doReplacements on
it, and keep the tables where strings were actually replaced. -/
def processRepLoop (raw : List Nat) (repl : List Nat → List Nat) :
    List (Nat × ELF32SectionHeader) → Except Err (List replacedStringTable)
  | [] => .ok []
  | (i, s) :: rest =>
    if isStringTable s then
      match getSectionContent raw s with
      | none => .error (.failedReadingSection i)
      | some content =>
        match doReplacements repl content with
        | .error _ => .error (.failedReplacingSection i)
        | .ok none => processRepLoop raw repl rest
        | .ok (some (reps, nc)) =>
          match processRepLoop raw repl rest with
          | .error e => .error e
          | .ok ts =>
            .ok ({ oldContent := content, newContent := nc,
                   oldFileOffset := s.fileOffset, newFileOffset := 0,
                   oldVirtualAddress := s.virtualAddress,
                   newVirtualAddress := 0,
                   sectionIndex := i % 65536, replacements := reps } :: ts)
    else processRepLoop raw repl rest

/-- Function processReplacements of the source: collects the replaced
string tables of all string table sections. -/
def processReplacements (f : ELF32File) (repl : List Nat → List Nat) :
    Except Err (List replacedStringTable) :=
  processRepLoop f.raw repl f.sections.enum

/-- Function readELFUint32 of the source: the Go bounds check rejects
offsets with offset + 3 past the end; the boundary case offset + 3 equal
to the length passes that check and is then rejected by the underlying
binary read running out of bytes. -/
def readELFUint32 (raw : List Nat) (offset : Nat) : Except Err Nat :=
  if raw.length < offset + 3 then .error (.invalidReadOffset offset)
  else if raw.length < offset + 4 then .error .readFailed
  else .ok (readLE32 raw offset)

/-- Function replaceSingleOffset of the source: read the 32-bit value at
the offset, fail when it exceeds the old content length, log a warning
(the Bool of the result) when the value is nonzero and the preceding old
content byte is not a NUL, and overwrite the field with the newOffset of
the first replacement record whose originalOffset equals the value. -/
def replaceSingleOffset (raw : List Nat) (offset : Nat)
    (t : replacedStringTable) : Except Err (List Nat × Bool) :=
  match readELFUint32 raw offset with
  | .error e => .error e
  | .ok value =>
    if t.oldContent.length < value then
      .error (.valueOutOfRange value t.sectionIndex)
    else
      let warned := (value != 0) && (t.oldContent.getD (value - 1) 0 != 0)
      match t.replacements.find? (fun r => r.originalOffset == value) with
      | none => .ok (raw, warned)
      | some r => .ok (writeBytesAt raw offset (le32Bytes r.newOffset), warned)

/-- Function getReplacementTable of the source: the first replaced table
of the given section index, none when the section had no replacements. -/
def getReplacementTable (replacements : List replacedStringTable)
    (sectionIndex : Nat) : Option replacedStringTable :=
  replacements.find? (fun t => t.sectionIndex == sectionIndex)

/-- Concrete buffer for the C2 witness: a single field holding value 1. -/
def c2raw : List Nat := [1, 0, 0, 0]

/-- Concrete replaced table for the C2 witness. -/
def c2table : replacedStringTable :=
  { oldContent := [0, 65, 0], newContent := [0, 65, 0, 66, 0],
    oldFileOffset := 0, newFileOffset := 0, oldVirtualAddress := 0,
    newVirtualAddress := 0, sectionIndex := 7,
    replacements := [⟨1, 100⟩] }

/-- Function fileOffsetToVirtualAddress of the source: the Go bounds
check rejects only indices strictly greater than the section count, so
the boundary index equal to the count passes the check and the section
table access that follows crashes with an index-out-of-range panic. -/
def fileOffsetToVirtualAddress (sections : List ELF32SectionHeader)
    (sectionIndex offset : Nat) : GRes Nat :=
  if sections.length < sectionIndex then
    .err (.invalidSectionIndex sectionIndex)
  else
    match sections.get? sectionIndex with
    | none => .crashed
    | some s => .ok (add32 offset (sub32 s.virtualAddress s.fileOffset))

/-- The per-entry loop of replaceDynamicTableStrings of the source: for
every parsed dynamic entry tag, tags 1, 14 and 15 patch the 4-byte value
field (4 bytes into the 8-byte entry) as a string reference, tag 5 has
the value field overwritten with the new virtual address of the string
table, and every other tag leaves the entry alone. -/
def dynLoop (t : replacedStringTable) (va : Nat) :
    List Nat → List Nat → Nat → Except Err (List Nat)
  | [], raw, _ => .ok raw
  | tag :: rest, raw, off =>
    if tag == 1 || tag == 14 || tag == 15 then
      match replaceSingleOffset raw (add32 off 4) t with
      | .error e => .error e
      | .ok (raw', _) => dynLoop t va rest raw' (add32 off 8)
    else if tag == 5 then
      dynLoop t va rest (writeBytesAt raw (add32 off 4) (le32Bytes va))
        (add32 off 8)
    else dynLoop t va rest raw (add32 off 8)

/-- Function replaceDynamicTableStrings of the source: find the first
dynamic section, look up the delta of its linked string table (skipping
everything when there is none), obtain the parsed entry tags from the
object model (abstracted as getDynTags), and run the per-entry patch
loop starting at the file offset of the section, passing the new
virtual address of the table for the tag 5 rewrite. -/
def replaceDynamicTableStrings (f : ELF32File)
    (reps : List replacedStringTable)
    (getDynTags : Nat → Except Err (List Nat)) : Except Err (List Nat) :=
  match f.sections.enum.find? (fun p => isDynamicSection p.2) with
  | none => .ok f.raw
  | some (i, s) =>
    match getReplacementTable reps (s.linkedIndex % 65536) with
    | none => .ok f.raw
    | some t =>
      match getDynTags i with
      | .error e => .error e
      | .ok tags => dynLoop t t.newVirtualAddress tags f.raw s.fileOffset

/-- Concrete dynamic table bytes for the C4 witness: three entries with
tags 1, 5 and 0; the value field of the tag 1 entry holds offset 2. -/
def c4raw : List Nat :=
  [1, 0, 0, 0, 2, 0, 0, 0, 5, 0, 0, 0, 9, 9, 9, 9, 0, 0, 0, 0, 3, 0, 0, 0]

/-- Concrete entry tags of the C4 witness. -/
def c4tags : List Nat := [1, 5, 0]

/-- Concrete replaced table for the C4 witness. -/
def c4table : replacedStringTable :=
  { oldContent := [0, 0, 0], newContent := [0, 0, 0, 65, 0],
    oldFileOffset := 0, newFileOffset := 0, oldVirtualAddress := 0,
    newVirtualAddress := 4096, sectionIndex := 1,
    replacements := [⟨2, 77⟩] }

/-- The buffer produced by the C4 witness run. -/
def c4out : List Nat :=
  match dynLoop c4table 4096 c4tags c4raw 0 with
  | .ok r => r
  | _ => []

/-- The 8-byte alignment padding loop of the relocator: append zero bytes
until the buffer length is a multiple of 8. -/
def pad8 (raw : List Nat) : List Nat :=
  raw ++ List.replicate ((8 - raw.length % 8) % 8) 0

/-- The per-table loop of relocateStringTables: append each new content
to the buffer, record the new file offset and virtual address of the table,
and update the owning section header fields (virtual address, file
offset, size) in the section list; the section table access crashes when
the recorded section index is out of range, as the Go indexing would. -/
def relocateLoop (raw : List Nat) (secs : List ELF32SectionHeader) :
    List replacedStringTable → Nat → Nat →
    GRes (List Nat × List ELF32SectionHeader × List replacedStringTable ×
      Nat × Nat)
  | [], curOff, curVA => .ok (raw, secs, [], curOff, curVA)
  | t :: rest, curOff, curVA =>
    let t' := { t with newFileOffset := curOff, newVirtualAddress := curVA }
    let raw1 := raw ++ t.newContent
    let ncl := t.newContent.length % m32
    match secs.get? t.sectionIndex with
    | none => .crashed
    | some s =>
      let secs1 := secs.set t.sectionIndex
        { s with virtualAddress := curVA, fileOffset := curOff, size := ncl }
      match relocateLoop raw1 secs1 rest (add32 curOff ncl)
          (add32 curVA ncl) with
      | .ok (raw2, secs2, rest2, o2, v2) => .ok (raw2, secs2, t' :: rest2, o2, v2)
      | .err e => .err e
      | .crashed => .crashed

/-- The program-header-segment search-and-update loop of the relocator:
the first segment of the program header table type gets its mapping
fields overwritten; when no segment has that type the list is returned
unchanged and no error is signalled. -/
def updateFirstPH (off va sz : Nat) :
    List ELF32ProgramHeader → List ELF32ProgramHeader
  | [] => []
  | s :: rest =>
    if s.typ = programHeaderSegmentType then
      { s with
        fileOffset := off
        virtualAddress := va
        physicalAddress := 0
        fileSize := sz
        memorySize := sz
        align := 8 } :: rest
    else s :: updateFirstPH off va sz rest

/-- The tail of relocateStringTables after the per-table loop: write the
updated section headers back, re-pad to 8 bytes, create the new loadable
segment sized to also cover the appended program header table, update
the self-referential program header segment when present, append the
updated program header table, and patch the two ELF header fields (file
offset of the table at byte 28, entry count at byte 44) before the
final re-parse validation (abstracted as the reparse check). -/
def relocateWriteTail (f : ELF32File) (tbls1 : List replacedStringTable)
    (secs1 : List ELF32SectionHeader) (raw3 : List Nat) (curOff2 : Nat)
    (segs3 : List ELF32ProgramHeader) (reparse : List Nat → Bool) :
    GRes (ELF32File × List replacedStringTable) :=
  let raw4 := writeBytesAt raw3 curOff2 (serializeSegments segs3)
  let raw5 := writeBytesAt raw4 28 (le32Bytes curOff2)
  let raw6 := writeBytesAt raw5 44 (le16Bytes (segs3.length % 65536))
  if reparse raw6 then
    .ok ({ f with raw := raw6, sections := secs1, segments := segs3 }, tbls1)
  else .err .reparseFailed

def relocateFinish (f : ELF32File) (tbls1 : List replacedStringTable)
    (secs1 : List ELF32SectionHeader) (raw1 : List Nat)
    (endOff endVA curOff curVA : Nat) (reparse : List Nat → Bool) :
    GRes (ELF32File × List replacedStringTable) :=
  let raw2 := writeBytesAt raw1 f.header.sectionHeaderOffset
    (serializeSections secs1)
  let padN := (8 - raw2.length % 8) % 8
  let raw3 := raw2 ++ List.replicate padN 0
  let stSize := (sub32 curOff endOff + padN) % m32
  let curOff2 := (curOff + padN) % m32
  let curVA2 := (curVA + padN) % m32
  let newSeg : ELF32ProgramHeader :=
    { typ := loadableSegmentType, fileOffset := endOff,
      virtualAddress := endVA, physicalAddress := 0, fileSize := stSize,
      memorySize := stSize, flags := 2, align := 8 }
  let segs1 := f.segments ++ [newSeg]
  let phSize := (32 * segs1.length) % m32
  let segs2 := segs1.set (segs1.length - 1)
    { newSeg with
      fileSize := add32 stSize phSize
      memorySize := add32 stSize phSize }
  let segs3 := updateFirstPH curOff2 curVA2 phSize segs2
  relocateWriteTail f tbls1 secs1 raw3 curOff2 segs3 reparse

/-- Function relocateStringTables of the source (current variant): no-op
on an empty delta list; otherwise align the file end, compute the end
virtual address from the owning section mapping of the first delta, append
every new table content, and finish with the segment and header
updates. -/
def relocateStringTables (f : ELF32File)
    (newTables : List replacedStringTable) (reparse : List Nat → Bool) :
    GRes (ELF32File × List replacedStringTable) :=
  match newTables with
  | [] => .ok (f, newTables)
  | t0 :: _ =>
    let raw0 := pad8 f.raw
    let endOff := raw0.length % m32
    match fileOffsetToVirtualAddress f.sections t0.sectionIndex endOff with
    | .err _ => .err .endVACalc
    | .crashed => .crashed
    | .ok endVA =>
      match relocateLoop raw0 f.sections newTables endOff endVA with
      | .err e => .err e
      | .crashed => .crashed
      | .ok (raw1, secs1, tbls1, curOff, curVA) =>
        relocateFinish f tbls1 secs1 raw1 endOff endVA curOff curVA reparse

/-- Concrete file for the C5 claims: a 52-byte buffer, one string table
section, and no segments at all (in particular no program-header-table
segment). -/
def c5sec : ELF32SectionHeader :=
  { name := 0, typ := 3, flags := 0, virtualAddress := 0, fileOffset := 0,
    size := 1, linkedIndex := 0, info := 0, align := 0, entrySize := 0 }

def c5file : ELF32File :=
  { raw := List.replicate 52 0
    header := { sectionHeaderOffset := 0, sectionNamesTable := 0 }
    sections := [c5sec]
    segments := [] }

/-- Concrete non-empty delta for the C5 claims. -/
def c5table : replacedStringTable :=
  { oldContent := [0], newContent := [0, 65, 0], oldFileOffset := 0,
    newFileOffset := 0, oldVirtualAddress := 0, newVirtualAddress := 0,
    sectionIndex := 0, replacements := [⟨0, 1⟩] }

/-- The state produced by the successful C5 run. -/
def c5out : ELF32File × List replacedStringTable :=
  match relocateStringTables c5file [c5table] (fun _ => true) with
  | .ok p => p
  | _ => (c5file, [])

/-- The total number of bytes of new table content in a delta list. -/
def totalNewLen (tbls : List replacedStringTable) : Nat :=
  (tbls.map (fun t => t.newContent.length)).sum

/-- The state produced by the successful C6 run. -/
def c6res : ELF32File × List replacedStringTable :=
  match relocateStringTables c5file [c5table] (fun _ => true) with
  | .ok p => p
  | _ => (c5file, [])

/-- Sequential patching of a precomputed list of reference-field offsets
through replaceSingleOffset, stopping at the first error (the common
walk shared by the section name, symbol name and version requirement
passes of the source). -/
def repOffsetsLoop (t : replacedStringTable) :
    List Nat → List Nat → Except Err (List Nat)
  | [], raw => .ok raw
  | o :: rest, raw =>
    match replaceSingleOffset raw o t with
    | .error e => .error e
    | .ok (raw1, _) => repOffsetsLoop t rest raw1

/-- Function getSectionHeaderOffset of the source: byte offset of a
section header inside the raw buffer (40 bytes per header), with uint32
arithmetic. -/
def getSectionHeaderOffset (shOff i : Nat) : Nat :=
  add32 shOff (mul32 i 40)

/-- Function replaceSectionNames of the source: when the section-name
string table has a delta, patch the name field (first 4 bytes) of every
section header. -/
def replaceSectionNames (f : ELF32File)
    (reps : List replacedStringTable) : Except Err (List Nat) :=
  match getReplacementTable reps f.header.sectionNamesTable with
  | none => .ok f.raw
  | some t =>
    repOffsetsLoop t ((List.range f.sections.length).map
      (fun i => getSectionHeaderOffset f.header.sectionHeaderOffset i)) f.raw

/-- The symbol record size of the object model (binary.Size of
ELF32Symbol: name 4, value 4, size 4, info 1, other 1, section 2). -/
def symbolSize : Nat := 16

/-- The per-section walk of replaceSymbolNames: for every symbol table
section whose linked string table has a delta, patch the name field (the
first 4 bytes of each fixed-size symbol record) at every record start
below the section size. -/
def symSectionsLoop (reps : List replacedStringTable) :
    List ELF32SectionHeader → List Nat → Except Err (List Nat)
  | [], raw => .ok raw
  | s :: rest, raw =>
    if isSymbolTable s then
      match getReplacementTable reps (s.linkedIndex % 65536) with
      | none => symSectionsLoop reps rest raw
      | some t =>
        match repOffsetsLoop t
            ((List.range ((s.size + symbolSize - 1) / symbolSize)).map
              (fun j => add32 s.fileOffset (mul32 j symbolSize))) raw with
        | .error e => .error e
        | .ok raw1 => symSectionsLoop reps rest raw1
    else symSectionsLoop reps rest raw

/-- Function replaceSymbolNames of the source. -/
def replaceSymbolNames (f : ELF32File)
    (reps : List replacedStringTable) : Except Err (List Nat) :=
  symSectionsLoop reps f.sections f.raw

/-- Function replaceVersionDefinitionStrings of the source: an explicit
stub; version definition names are not implemented and the pass is a
no-op that never errors. -/
def replaceVersionDefinitionStrings (f : ELF32File)
    (_reps : List replacedStringTable) : Except Err (List Nat) :=
  .ok f.raw

/-- One parsed Verneed record: the offset of its first auxiliary record
and the stride to the next Verneed record. -/
structure VerNeed where
  auxOffset : Nat
  next : Nat
deriving DecidableEq, Repr

/-- One parsed Vernaux record: the stride to the next auxiliary record. -/
structure VerAux where
  next : Nat
deriving DecidableEq, Repr

/-- File offsets of the name fields of a Vernaux chain (name at byte 8
of each record), chained by the next stride, uint32 arithmetic. -/
def auxOffsetsList : Nat → List VerAux → List Nat
  | _, [] => []
  | a, x :: rest => add32 a 8 :: auxOffsetsList (add32 a x.next) rest

/-- File offsets of all name fields of a Verneed walk: the file name at
byte 4 of each Verneed record, then the names of its Vernaux chain,
advancing by the next stride of each record. -/
def verneedOffsetsList : Nat → List (VerNeed × List VerAux) → List Nat
  | _, [] => []
  | base, (n, auxs) :: rest =>
    add32 base 4 :: (auxOffsetsList (add32 base n.auxOffset) auxs ++
      verneedOffsetsList (add32 base n.next) rest)

/-- Function replaceVersionRequirementStrings of the source: find the
first version requirement section, skip when its linked string table has
no delta, parse the Verneed and Vernaux records through the object model
(abstracted as parseVR) and patch every name field along the walk. -/
def replaceVersionRequirementStrings (f : ELF32File)
    (reps : List replacedStringTable)
    (parseVR : Nat → Except Err (List (VerNeed × List VerAux))) :
    Except Err (List Nat) :=
  match f.sections.enum.find? (fun p => isVersionRequirementSection p.2) with
  | none => .ok f.raw
  | some (i, s) =>
    match getReplacementTable reps (s.linkedIndex % 65536) with
    | none => .ok f.raw
    | some t =>
      match parseVR i with
      | .error e => .error e
      | .ok needAux =>
        repOffsetsLoop t (verneedOffsetsList s.fileOffset needAux) f.raw

/-- Function updateStringReferences of the source: run the five patch
passes in order, threading the raw buffer, and finish with the re-parse
validation; any failure aborts the whole walk. -/
def updateStringReferences (f : ELF32File)
    (reps : List replacedStringTable)
    (parseVR : Nat → Except Err (List (VerNeed × List VerAux)))
    (getDynTags : Nat → Except Err (List Nat))
    (reparse : List Nat → Bool) : Except Err ELF32File :=
  match replaceSectionNames f reps with
  | .error e => .error e
  | .ok r1 =>
    match replaceSymbolNames { f with raw := r1 } reps with
    | .error e => .error e
    | .ok r2 =>
      match replaceVersionDefinitionStrings { f with raw := r2 } reps with
      | .error e => .error e
      | .ok r3 =>
        match replaceVersionRequirementStrings { f with raw := r3 } reps
            parseVR with
        | .error e => .error e
        | .ok r4 =>
          match replaceDynamicTableStrings { f with raw := r4 } reps
              getDynTags with
          | .error e => .error e
          | .ok r5 =>
            if reparse r5 then .ok { f with raw := r5 }
            else .error .reparseFailed

/-- Function run of the source: the orchestrator.  Arguments and file
system collaborators are abstracted: compile is the regex compiler
(returning the substitution rule), readInput the input read, parseELF
the object-model parse, writeOk the success of the final file write.
The result is the process exit code together with the bytes written to
the output path (none when nothing was written); a Go runtime panic
escaping the pipeline terminates the process with exit code 2 and no
output. -/
def run (inputFile outputFile matchRegex replacement : String)
    (compile : String → Option (List Nat → List Nat))
    (readInput : Option (List Nat))
    (parseELF : List Nat → Option ELF32File)
    (parseVR : Nat → Except Err (List (VerNeed × List VerAux)))
    (getDynTags : Nat → Except Err (List Nat))
    (reparse : List Nat → Bool) (writeOk : Bool) :
    Nat × Option (List Nat) :=
  if inputFile = "" ∨ outputFile = "" ∨ matchRegex = "" ∨ replacement = ""
  then (1, none)
  else
    match compile matchRegex with
    | none => (1, none)
    | some repl =>
      match readInput with
      | none => (1, none)
      | some rawInput =>
        match parseELF rawInput with
        | none => (1, none)
        | some elf =>
          match processReplacements elf repl with
          | .error _ => (1, none)
          | .ok replacements =>
            match relocateStringTables elf replacements reparse with
            | .crashed => (2, none)
            | .err _ => (1, none)
            | .ok (elf2, replacements2) =>
              match updateStringReferences elf2 replacements2 parseVR
                  getDynTags reparse with
              | .error _ => (1, none)
              | .ok elf3 =>
                if writeOk then (0, some elf3.raw) else (1, none)

/-- Concrete regex collaborator for the C9 witness. -/
def c9compile : String → Option (List Nat → List Nat) :=
  fun _ => some (fun p => p)

/-- Concrete parse collaborator for the C9 witness. -/
def c9parse : List Nat → Option ELF32File := fun _ => some c5file

/-- Concrete version requirement parser for the C9 witness. -/
def c9pvr : Nat → Except Err (List (VerNeed × List VerAux)) :=
  fun _ => .ok []

/-- Concrete dynamic table parser for the C9 witness. -/
def c9dyn : Nat → Except Err (List Nat) := fun _ => .ok []

/-- Concrete reparse collaborator for the C9 witness. -/
def c9rp : List Nat → Bool := fun _ => true

theorem splitOnNul_ne_nil (l : List Nat) : splitOnNul l ≠ [] := by
  cases l with
  | nil => simp [splitOnNul]
  | cons b rest =>
    simp only [splitOnNul]
    split
    · simp
    · split <;> simp

theorem doRepLoop_acc (repl : List Nat → List Nat) (pieces : List (List Nat)) :
    ∀ cursor nc acc,
      doRepLoop repl pieces cursor nc acc =
        ((acc ++ (doRepLoop repl pieces cursor nc []).1),
          (doRepLoop repl pieces cursor nc []).2) := by
  induction pieces with
  | nil => intro cursor nc acc; simp [doRepLoop]
  | cons p rest ih =>
    intro cursor nc acc
    simp only [doRepLoop]
    split
    · exact ih _ _ _
    · rw [ih _ _ (acc ++ [_]), ih _ _ ([] ++ [_])]
      simp

theorem appendedTail_cons (repl : List Nat → List Nat) (p : List Nat)
    (rest : List (List Nat)) :
    appendedTail repl (p :: rest) =
      if repl p = p then appendedTail repl rest
      else (repl p ++ [0]) ++ appendedTail repl rest := by
  by_cases h : repl p = p
  · simp [appendedTail, List.filter_cons, h]
  · simp [appendedTail, List.filter_cons, h]

theorem pieceLens_splitOnNul (l : List Nat) :
    pieceLens (splitOnNul l) = l.length + 1 := by
  induction l with
  | nil => simp [splitOnNul, pieceLens]
  | cons b rest ih =>
    simp only [splitOnNul]
    split
    · simp [pieceLens] at ih ⊢
      omega
    · cases h : splitOnNul rest with
      | nil => exact absurd h (splitOnNul_ne_nil rest)
      | cons s ss =>
        rw [h] at ih
        simp [pieceLens] at ih ⊢
        omega

theorem doRepLoop_content (repl : List Nat → List Nat)
    (pieces : List (List Nat)) : ∀ cursor nc acc,
      (doRepLoop repl pieces cursor nc acc).2 = nc ++ appendedTail repl pieces := by
  induction pieces with
  | nil => intro cursor nc acc; simp [doRepLoop, appendedTail]
  | cons p rest ih =>
    intro cursor nc acc
    simp only [doRepLoop]
    split
    · rename_i h
      rw [ih]
      simp [appendedTail, List.filter, h]
    · rename_i h
      rw [ih]
      simp only [appendedTail, List.filter]
      have : (!(repl p = p : Bool)) = true := by
        simpa using h
      rw [this]
      simp [appendedTail]

theorem doRepLoop_offsets (repl : List Nat → List Nat) (pieces : List (List Nat)) :
    ∀ cursor nc,
      cursor + pieceLens pieces < m32 →
      nc.length + (appendedTail repl pieces).length < m32 →
      (∀ r ∈ (doRepLoop repl pieces cursor nc []).1,
          cursor ≤ r.originalOffset ∧ nc.length ≤ r.newOffset) ∧
      List.Chain' (fun a b => a.originalOffset < b.originalOffset ∧
          a.newOffset < b.newOffset) (doRepLoop repl pieces cursor nc []).1 := by
  induction pieces with
  | nil => intro cursor nc _ _; simp [doRepLoop]
  | cons p rest ih =>
    intro cursor nc hcur hnc
    have hplens : pieceLens (p :: rest) = (p.length + 1) + pieceLens rest := by
      simp [pieceLens]
    have hcur' : (cursor + p.length + 1) % m32 = cursor + p.length + 1 := by
      apply Nat.mod_eq_of_lt; omega
    simp only [doRepLoop]
    split
    · rename_i heq
      rw [appendedTail_cons, if_pos heq] at hnc
      have := ih (cursor + p.length + 1) nc (by omega) hnc
      rw [hcur']
      refine ⟨fun r hr => ?_, this.2⟩
      have := this.1 r hr
      omega
    · rename_i hne
      rw [appendedTail_cons, if_neg hne] at hnc
      simp only [List.length_append, List.length_cons, List.length_nil] at hnc
      have hnclen : nc.length % m32 = nc.length := by
        apply Nat.mod_eq_of_lt; omega
      rw [doRepLoop_acc repl rest _ _ ([] ++ [_])]
      have hih := ih (cursor + p.length + 1) (nc ++ repl p ++ [0])
        (by omega) (by simp; omega)
      rw [hcur']
      constructor
      · intro r hr
        simp only [List.nil_append, List.cons_append, List.mem_cons] at hr
        rcases hr with hr | hr
        · subst hr
          simp [hnclen]
        · have := hih.1 r hr
          simp only [List.length_append, List.length_cons,
            List.length_nil] at this
          omega
      · simp only [List.nil_append, List.cons_append]
        rw [List.chain'_cons']
        refine ⟨fun b hb => ?_, hih.2⟩
        have hbmem : b ∈ (doRepLoop repl rest (cursor + p.length + 1)
            (nc ++ repl p ++ [0]) []).1 := by
          exact List.mem_of_mem_head? hb
        have := hih.1 b hbmem
        simp only [List.length_append, List.length_cons, List.length_nil] at this
        constructor
        · simp; omega
        · simp [hnclen]; omega

/-- C1: the content produced by the diff builder for a changed table is a
byte-for-byte copy of the old content followed only by the replaced
strings, each NUL-terminated, appended in encounter order; hence every
unchanged string keeps its original byte offset and only matched strings
receive new offsets at the tail. -/
theorem doReplacements_newContent_structure (repl : List Nat → List Nat)
    (old : List Nat) (reps : List replacedString) (nc : List Nat)
    (hok : doReplacements repl old = .ok (some (reps, nc))) :
    nc = old ++ appendedTail repl (splitOnNul old) := by
  simp only [doReplacements] at hok
  split at hok
  · exact absurd hok (by simp)
  · simp only [Except.ok.injEq, Option.some.injEq] at hok
    have h2 := congrArg Prod.snd hok
    rw [doRepLoop_content] at h2
    exact h2.symm

theorem doReplacements_newContent_structure_witness :
    doReplacements scRepl scOld =
      .ok (some ([⟨0, 20⟩], scOld ++ libshimBytes ++ [0])) ∧
    scOld ++ libshimBytes ++ [0] =
      scOld ++ appendedTail scRepl (splitOnNul scOld) :=
  ⟨by rfl, doReplacements_newContent_structure scRepl scOld [⟨0, 20⟩]
    (scOld ++ libshimBytes ++ [0]) (by rfl)⟩

/-- C3: for every delta the diff builder produces, every newOffset is at
least the old content length, the newOffset values are strictly
increasing in append order, and the originalOffset values are unique,
provided the table sizes stay below the uint32 wrap-around. -/
theorem doReplacements_offset_monotonicity (repl : List Nat → List Nat)
    (old : List Nat) (reps : List replacedString) (nc : List Nat)
    (hok : doReplacements repl old = .ok (some (reps, nc)))
    (hsize : old.length + (appendedTail repl (splitOnNul old)).length + 1 < m32) :
    (∀ r ∈ reps, old.length ≤ r.newOffset) ∧
    List.Chain' (· < ·) (reps.map replacedString.newOffset) ∧
    (reps.map replacedString.originalOffset).Nodup := by
  simp only [doReplacements] at hok
  split at hok
  · exact absurd hok (by simp)
  · simp only [Except.ok.injEq, Option.some.injEq] at hok
    have h1 := congrArg Prod.fst hok
    have hoff := doRepLoop_offsets repl (splitOnNul old) 0 old
      (by rw [pieceLens_splitOnNul]; omega) (by omega)
    rw [h1] at hoff
    refine ⟨fun r hr => (hoff.1 r hr).2, ?_, ?_⟩
    · have hmap : List.Chain'
          (fun a b : replacedString => a.newOffset < b.newOffset) reps :=
        hoff.2.imp (fun a b h => h.2)
      exact (List.chain'_map _).mpr hmap
    · have hmap : List.Chain'
          (fun a b : replacedString => a.originalOffset < b.originalOffset) reps :=
        hoff.2.imp (fun a b h => h.1)
      have hch : List.Chain' (· < ·)
          (reps.map replacedString.originalOffset) :=
        (List.chain'_map _).mpr hmap
      have hpw := List.chain'_iff_pairwise.mp hch
      exact hpw.imp (fun h => Nat.ne_of_lt h)

theorem doReplacements_offset_monotonicity_witness :
    (∀ r ∈ [(⟨0, 20⟩ : replacedString)], scOld.length ≤ r.newOffset) ∧
    List.Chain' (· < ·)
      ([(⟨0, 20⟩ : replacedString)].map replacedString.newOffset) ∧
    (([(⟨0, 20⟩ : replacedString)]).map replacedString.originalOffset).Nodup :=
  doReplacements_offset_monotonicity scRepl scOld [⟨0, 20⟩]
    (scOld ++ libshimBytes ++ [0]) (by rfl) (by decide)

theorem doReplacements_ne_error (repl : List Nat → List Nat)
    (old : List Nat) (e : Err) : doReplacements repl old ≠ .error e := by
  simp only [doReplacements]
  split <;> simp

theorem doRepLoop_fixed (repl : List Nat → List Nat)
    (pieces : List (List Nat)) (hfix : ∀ p ∈ pieces, repl p = p) :
    ∀ cursor nc acc, doRepLoop repl pieces cursor nc acc = (acc, nc) := by
  induction pieces with
  | nil => intro cursor nc acc; simp [doRepLoop]
  | cons p rest ih =>
    intro cursor nc acc
    have hp : repl p = p := hfix p (by simp)
    simp only [doRepLoop, if_pos hp]
    exact ih (fun q hq => hfix q (by simp [hq])) _ _ _

theorem processRepLoop_error_shape (raw : List Nat)
    (repl : List Nat → List Nat) :
    ∀ (secs : List (Nat × ELF32SectionHeader)) (e : Err),
      processRepLoop raw repl secs = .error e →
      ∃ i, e = .failedReadingSection i := by
  intro secs
  induction secs with
  | nil => intro e h; simp [processRepLoop] at h
  | cons x rest ih =>
    intro e h
    obtain ⟨i, s⟩ := x
    simp only [processRepLoop] at h
    split at h
    · split at h
      · rename_i hnone
        exact ⟨i, by cases h; rfl⟩
      · split at h
        · rename_i herr
          exact absurd herr (doReplacements_ne_error _ _ _)
        · exact ih e h
        · split at h
          · rename_i hrec
            cases h
            exact ih _ hrec
          · cases h
    · exact ih e h

/-- C10: doReplacements returns a nil error for every substitution rule
and every old content; when zero strings change it leaves the result
fields unset (none) and still succeeds, so the branch of
processReplacements that reports a doReplacements failure is unreachable:
the only error processReplacements can return is a section read failure. -/
theorem doReplacements_no_failure_path (repl : List Nat → List Nat)
    (old : List Nat) :
    (∃ r, doReplacements repl old = Except.ok r) ∧
    ((∀ p ∈ splitOnNul old, repl p = p) →
      doReplacements repl old = .ok none) ∧
    (∀ (f : ELF32File) (e : Err), processReplacements f repl = .error e →
      ∃ i, e = Err.failedReadingSection i) := by
  refine ⟨?_, ?_, ?_⟩
  · simp only [doReplacements]
    split
    · exact ⟨none, rfl⟩
    · exact ⟨_, rfl⟩
  · intro hfix
    simp only [doReplacements, doRepLoop_fixed repl (splitOnNul old) hfix]
    simp
  · intro f e h
    exact processRepLoop_error_shape f.raw repl f.sections.enum e h

theorem doReplacements_no_failure_path_witness :
    (∃ r, doReplacements (fun p : List Nat => p) [0] = Except.ok r) ∧
    doReplacements (fun p : List Nat => p) [0] = .ok none :=
  ⟨(doReplacements_no_failure_path (fun p => p) [0]).1,
   (doReplacements_no_failure_path (fun p => p) [0]).2.1 (by simp)⟩

theorem getD_take (raw : List Nat) :
    ∀ (off p : Nat), p < off → (raw.take off).getD p 0 = raw.getD p 0 := by
  induction raw with
  | nil => intro off p _; simp
  | cons a l ih =>
    intro off p hp
    cases off with
    | zero => omega
    | succ off' =>
      cases p with
      | zero => simp
      | succ p' => simpa using ih off' p' (by omega)

theorem getD_drop (raw : List Nat) :
    ∀ (off p : Nat), (raw.drop off).getD p 0 = raw.getD (off + p) 0 := by
  induction raw with
  | nil => intro off p; simp
  | cons a l ih =>
    intro off p
    cases off with
    | zero => simp
    | succ off' => simp [Nat.succ_add, ih off' p]

theorem writeBytesAt_eq_of_le (raw : List Nat) (off : Nat) (bs : List Nat)
    (h : off ≤ raw.length) :
    writeBytesAt raw off bs =
      raw.take off ++ bs ++ raw.drop (off + bs.length) := by
  simp [writeBytesAt, Nat.sub_eq_zero_of_le h]

theorem length_writeBytesAt (raw : List Nat) (off : Nat) (bs : List Nat)
    (h : off ≤ raw.length) :
    (writeBytesAt raw off bs).length = max raw.length (off + bs.length) := by
  rw [writeBytesAt_eq_of_le _ _ _ h]
  simp
  omega

theorem byteAt_writeBytesAt_lt (raw : List Nat) (off : Nat) (bs : List Nat)
    (p : Nat) (hle : off ≤ raw.length) (hp : p < off) :
    byteAt (writeBytesAt raw off bs) p = byteAt raw p := by
  rw [writeBytesAt_eq_of_le _ _ _ hle]
  unfold byteAt
  rw [List.append_assoc, List.getD_append _ _ _ _ (by simp; omega)]
  exact getD_take raw off p hp

theorem byteAt_writeBytesAt_mid (raw : List Nat) (off : Nat) (bs : List Nat)
    (p : Nat) (hle : off ≤ raw.length) (h1 : off ≤ p)
    (h2 : p < off + bs.length) :
    byteAt (writeBytesAt raw off bs) p = bs.getD (p - off) 0 := by
  rw [writeBytesAt_eq_of_le _ _ _ hle]
  unfold byteAt
  rw [List.append_assoc, List.getD_append_right _ _ _ _ (by simp; omega)]
  rw [List.getD_append _ _ _ _ (by simp [Nat.min_eq_left hle]; omega)]
  congr 1
  simp [Nat.min_eq_left hle]

theorem byteAt_writeBytesAt_ge (raw : List Nat) (off : Nat) (bs : List Nat)
    (p : Nat) (hle : off ≤ raw.length) (h : off + bs.length ≤ p) :
    byteAt (writeBytesAt raw off bs) p = byteAt raw p := by
  rw [writeBytesAt_eq_of_le _ _ _ hle]
  unfold byteAt
  rw [List.append_assoc, List.getD_append_right _ _ _ _ (by simp; omega)]
  rw [List.getD_append_right _ _ _ _ (by simp [Nat.min_eq_left hle]; omega)]
  rw [getD_drop]
  congr 1
  simp [Nat.min_eq_left hle]
  omega

theorem map_getD_range (bs : List Nat) :
    (List.range bs.length).map (fun k => bs.getD k 0) = bs := by
  apply List.ext_getElem
  · simp
  · intro i h1 h2
    simp [List.getD_eq_getElem?_getD, List.getElem?_eq_getElem h2]

theorem chunkN_writeBytesAt_self (raw : List Nat) (off : Nat)
    (bs : List Nat) (hle : off ≤ raw.length) :
    chunkN (writeBytesAt raw off bs) off bs.length = bs := by
  unfold chunkN
  have : ∀ k ∈ List.range bs.length,
      byteAt (writeBytesAt raw off bs) (off + k) = bs.getD k 0 := by
    intro k hk
    rw [byteAt_writeBytesAt_mid raw off bs _ hle (by omega)
      (by simp at hk; omega)]
    congr 1
    omega
  rw [List.map_congr_left this]
  exact map_getD_range bs

theorem chunkN_congr (raw raw' : List Nat) (off n : Nat)
    (h : ∀ p, off ≤ p → p < off + n → byteAt raw' p = byteAt raw p) :
    chunkN raw' off n = chunkN raw off n := by
  unfold chunkN
  apply List.map_congr_left
  intro k hk
  simp at hk
  exact h (off + k) (by omega) (by omega)

/-- C2: behavior of replaceSingleOffset on every successfully read value:
a value past the old content length is a fatal error; otherwise a value
that equals the originalOffset of some replacement gets the 4-byte field
overwritten with that newOffset, a value matching no replacement leaves
the buffer unchanged without error, and a nonzero value whose preceding
old content byte is not NUL merely sets the warning flag and proceeds. -/
theorem replaceSingleOffset_behavior (raw : List Nat) (offset : Nat)
    (t : replacedStringTable) (v : Nat)
    (hv : readELFUint32 raw offset = .ok v) :
    (t.oldContent.length < v →
      replaceSingleOffset raw offset t =
        .error (.valueOutOfRange v t.sectionIndex)) ∧
    (v ≤ t.oldContent.length →
      ((∀ r ∈ t.replacements, r.originalOffset ≠ v) →
        replaceSingleOffset raw offset t =
          .ok (raw, (v != 0) && (t.oldContent.getD (v - 1) 0 != 0))) ∧
      (∀ r, t.replacements.find? (fun x => x.originalOffset == v) = some r →
        replaceSingleOffset raw offset t =
          .ok (writeBytesAt raw offset (le32Bytes r.newOffset),
            (v != 0) && (t.oldContent.getD (v - 1) 0 != 0))) ∧
      (v ≠ 0 → t.oldContent.getD (v - 1) 0 ≠ 0 →
        ∃ raw', replaceSingleOffset raw offset t = .ok (raw', true))) := by
  have hbase : replaceSingleOffset raw offset t =
      (if t.oldContent.length < v then
        .error (.valueOutOfRange v t.sectionIndex)
      else
        match t.replacements.find? (fun r => r.originalOffset == v) with
        | none => .ok (raw, (v != 0) && (t.oldContent.getD (v - 1) 0 != 0))
        | some r => .ok (writeBytesAt raw offset (le32Bytes r.newOffset),
            (v != 0) && (t.oldContent.getD (v - 1) 0 != 0))) := by
    simp only [replaceSingleOffset, hv]
  refine ⟨fun hgt => ?_, fun hle => ⟨fun hnone => ?_, fun r hr => ?_, ?_⟩⟩
  · rw [hbase, if_pos hgt]
  · have : t.replacements.find? (fun x => x.originalOffset == v) = none := by
      rw [List.find?_eq_none]
      intro x hx
      simpa using hnone x hx
    rw [hbase, if_neg (by omega), this]
  · rw [hbase, if_neg (by omega), hr]
  · intro hv0 hprev
    rw [hbase, if_neg (by omega)]
    have hwarn : ((v != 0) && (t.oldContent.getD (v - 1) 0 != 0)) = true := by
      have h1 : (v != 0) = true := by
        simp only [bne_iff_ne, ne_eq]
        exact hv0
      have h2 : (t.oldContent.getD (v - 1) 0 != 0) = true := by
        simp only [bne_iff_ne, ne_eq]
        exact hprev
      rw [h1, h2]
      rfl
    cases hfind : t.replacements.find? (fun x => x.originalOffset == v) with
    | none => exact ⟨raw, by rw [hwarn]⟩
    | some r => exact ⟨_, by rw [hwarn]⟩

theorem replaceSingleOffset_behavior_witness :
    (c2table.oldContent.length < 1 →
      replaceSingleOffset c2raw 0 c2table =
        .error (.valueOutOfRange 1 c2table.sectionIndex)) ∧
    (1 ≤ c2table.oldContent.length →
      ((∀ r ∈ c2table.replacements, r.originalOffset ≠ 1) →
        replaceSingleOffset c2raw 0 c2table =
          .ok (c2raw, (1 != 0) && (c2table.oldContent.getD (1 - 1) 0 != 0))) ∧
      (∀ r, c2table.replacements.find?
          (fun x => x.originalOffset == 1) = some r →
        replaceSingleOffset c2raw 0 c2table =
          .ok (writeBytesAt c2raw 0 (le32Bytes r.newOffset),
            (1 != 0) && (c2table.oldContent.getD (1 - 1) 0 != 0))) ∧
      (1 ≠ 0 → c2table.oldContent.getD (1 - 1) 0 ≠ 0 →
        ∃ raw', replaceSingleOffset c2raw 0 c2table = .ok (raw', true))) :=
  replaceSingleOffset_behavior c2raw 0 c2table 1 (by rfl)

/-- C7: at the out-of-range section index equal to the section count
(here the empty section table and index 0) the translator does not
return an error: the strictly-greater bounds check passes and the
access of the section table crashes with a runtime panic. -/
theorem fileOffsetToVirtualAddress_boundary_crash :
    fileOffsetToVirtualAddress [] 0 0 = GRes.crashed := rfl

theorem le32Bytes_length (v : Nat) : (le32Bytes v).length = 4 := by
  simp [le32Bytes]

theorem le16Bytes_length (v : Nat) : (le16Bytes v).length = 2 := by
  simp [le16Bytes]

theorem readELFUint32_ok (raw : List Nat) (off v : Nat)
    (h : readELFUint32 raw off = .ok v) :
    off + 4 ≤ raw.length ∧ v = readLE32 raw off := by
  unfold readELFUint32 at h
  split at h
  · cases h
  · split at h
    · cases h
    · cases h
      constructor
      · omega
      · rfl

theorem replaceSingleOffset_ok_frame (raw : List Nat) (off : Nat)
    (t : replacedStringTable) (raw' : List Nat) (w : Bool)
    (h : replaceSingleOffset raw off t = .ok (raw', w)) :
    off + 4 ≤ raw.length ∧ raw'.length = raw.length ∧
    (∀ p, p < off ∨ off + 4 ≤ p → byteAt raw' p = byteAt raw p) := by
  cases hr : readELFUint32 raw off with
  | error e =>
    simp only [replaceSingleOffset, hr] at h
    cases h
  | ok v =>
    simp only [replaceSingleOffset, hr] at h
    obtain ⟨hb, _⟩ := readELFUint32_ok raw off v hr
    split at h
    · cases h
    · refine ⟨hb, ?_⟩
      cases hfind : List.find? (fun r => r.originalOffset == v)
          t.replacements with
      | none =>
        simp only [hfind] at h
        cases h
        exact ⟨rfl, fun p _ => rfl⟩
      | some r =>
        simp only [hfind] at h
        cases h
        constructor
        · rw [length_writeBytesAt _ _ _ (by omega)]
          rw [le32Bytes_length]
          omega
        · intro p hp
          rcases hp with hp | hp
          · exact byteAt_writeBytesAt_lt _ _ _ _ (by omega) hp
          · exact byteAt_writeBytesAt_ge _ _ _ _ (by omega)
              (by rw [le32Bytes_length]; omega)

theorem dynLoop_frame (t : replacedStringTable) (va : Nat) :
    ∀ (tags raw : List Nat) (off : Nat) (raw' : List Nat),
      dynLoop t va tags raw off = .ok raw' →
      off + 8 * tags.length ≤ raw.length →
      off + 8 * tags.length < m32 →
      raw'.length = raw.length ∧
      (∀ p, (∀ i, i < tags.length → p < off + 8 * i + 4 ∨
          off + 8 * i + 8 ≤ p) → byteAt raw' p = byteAt raw p) := by
  intro tags
  induction tags with
  | nil =>
    intro raw off raw' h _ _
    cases h
    exact ⟨rfl, fun _ _ => rfl⟩
  | cons tag rest ih =>
    intro raw off raw' h hb hm
    have h84 : add32 off 4 = off + 4 := by
      unfold add32
      apply Nat.mod_eq_of_lt
      simp [List.length_cons] at hm
      omega
    have h88 : add32 off 8 = off + 8 := by
      unfold add32
      apply Nat.mod_eq_of_lt
      simp [List.length_cons] at hm
      omega
    simp only [dynLoop, h84, h88] at h
    simp only [List.length_cons] at hb hm ⊢
    split at h
    · cases hrso : replaceSingleOffset raw (off + 4) t with
      | error e =>
        simp only [hrso] at h
        cases h
      | ok pr =>
        obtain ⟨raw1, w⟩ := pr
        simp only [hrso] at h
        obtain ⟨_, hlen1, hfr1⟩ :=
          replaceSingleOffset_ok_frame raw (off + 4) t raw1 w hrso
        have hrest := ih raw1 (off + 8) raw' h (by omega) (by omega)
        refine ⟨hrest.1.trans hlen1, fun p hp => ?_⟩
        have hp0 := hp 0 (by omega)
        rw [hrest.2 p (fun i hi => by
          have := hp (i + 1) (by omega)
          omega)]
        exact hfr1 p (by omega)
    · split at h
      · have hw : off + 4 ≤ raw.length := by omega
        have hlen1 : (writeBytesAt raw (off + 4) (le32Bytes va)).length =
            raw.length := by
          rw [length_writeBytesAt _ _ _ hw, le32Bytes_length]
          omega
        have hrest := ih _ (off + 8) raw' h (by omega) (by omega)
        refine ⟨hrest.1.trans hlen1, fun p hp => ?_⟩
        have hp0 := hp 0 (by omega)
        rw [hrest.2 p (fun i hi => by
          have := hp (i + 1) (by omega)
          omega)]
        rcases hp0 with hp0 | hp0
        · exact byteAt_writeBytesAt_lt _ _ _ _ hw hp0
        · exact byteAt_writeBytesAt_ge _ _ _ _ hw
            (by rw [le32Bytes_length]; omega)
      · have hrest := ih raw (off + 8) raw' h (by omega) (by omega)
        exact ⟨hrest.1, fun p hp => hrest.2 p (fun i hi => by
          have := hp (i + 1) (by omega)
          omega)⟩

theorem readLE32_congr (raw raw1 : List Nat) (p : Nat)
    (h : ∀ q, p ≤ q → q < p + 4 → byteAt raw1 q = byteAt raw q) :
    readLE32 raw1 p = readLE32 raw p := by
  unfold readLE32
  rw [h p (Nat.le_refl p) (by omega), h (p + 1) (by omega) (by omega),
    h (p + 2) (by omega) (by omega), h (p + 3) (by omega) (by omega)]

theorem replaceSingleOffset_ok_content (raw : List Nat) (off : Nat)
    (t : replacedStringTable) (raw' : List Nat) (w : Bool)
    (h : replaceSingleOffset raw off t = .ok (raw', w)) :
    (t.replacements.find?
        (fun x => x.originalOffset == readLE32 raw off) = none → raw' = raw) ∧
    (∀ r, t.replacements.find?
        (fun x => x.originalOffset == readLE32 raw off) = some r →
      raw' = writeBytesAt raw off (le32Bytes r.newOffset)) := by
  cases hr : readELFUint32 raw off with
  | error e =>
    simp only [replaceSingleOffset, hr] at h
    cases h
  | ok v =>
    simp only [replaceSingleOffset, hr] at h
    obtain ⟨_, hv⟩ := readELFUint32_ok raw off v hr
    subst hv
    split at h
    · cases h
    · cases hfind : List.find?
          (fun x => x.originalOffset == readLE32 raw off) t.replacements with
      | none =>
        simp only [hfind] at h
        cases h
        constructor
        · intro _
          rfl
        · intro r hr'
          cases hr'
      | some r =>
        simp only [hfind] at h
        cases h
        constructor
        · intro hn
          cases hn
        · intro r' hr'
          cases hr'
          rfl

theorem dynLoop_entry (t : replacedStringTable) (va : Nat) :
    ∀ (tags raw : List Nat) (off : Nat) (raw' : List Nat),
      dynLoop t va tags raw off = .ok raw' →
      off + 8 * tags.length ≤ raw.length →
      off + 8 * tags.length < m32 →
      ∀ i, (hi : i < tags.length) →
        ((tags.get ⟨i, hi⟩ = 1 ∨ tags.get ⟨i, hi⟩ = 14 ∨
            tags.get ⟨i, hi⟩ = 15) →
          (∀ r, t.replacements.find? (fun x =>
              x.originalOffset == readLE32 raw (off + 8 * i + 4)) = some r →
            chunkN raw' (off + 8 * i + 4) 4 = le32Bytes r.newOffset) ∧
          (t.replacements.find? (fun x =>
              x.originalOffset == readLE32 raw (off + 8 * i + 4)) = none →
            chunkN raw' (off + 8 * i + 4) 4 =
              chunkN raw (off + 8 * i + 4) 4)) ∧
        (tags.get ⟨i, hi⟩ = 5 →
          chunkN raw' (off + 8 * i + 4) 4 = le32Bytes va) ∧
        (tags.get ⟨i, hi⟩ ≠ 1 → tags.get ⟨i, hi⟩ ≠ 5 →
          tags.get ⟨i, hi⟩ ≠ 14 → tags.get ⟨i, hi⟩ ≠ 15 →
          chunkN raw' (off + 8 * i + 4) 4 =
            chunkN raw (off + 8 * i + 4) 4) := by
  intro tags
  induction tags with
  | nil =>
    intro raw off raw' _ _ _ i hi
    simp at hi
  | cons tag rest ih =>
    intro raw off raw' h hb hm
    have h84 : add32 off 4 = off + 4 := by
      unfold add32
      apply Nat.mod_eq_of_lt
      simp [List.length_cons] at hm
      omega
    have h88 : add32 off 8 = off + 8 := by
      unfold add32
      apply Nat.mod_eq_of_lt
      simp [List.length_cons] at hm
      omega
    simp only [dynLoop, h84, h88] at h
    simp only [List.length_cons] at hb hm
    split at h
    · rename_i hcond
      have htag : tag = 1 ∨ tag = 14 ∨ tag = 15 := by
        simp at hcond
        tauto
      cases hrso : replaceSingleOffset raw (off + 4) t with
      | error e =>
        simp only [hrso] at h
        cases h
      | ok pr =>
        obtain ⟨raw1, w⟩ := pr
        simp only [hrso] at h
        obtain ⟨hb4, hlen1, hfr1⟩ :=
          replaceSingleOffset_ok_frame raw (off + 4) t raw1 w hrso
        obtain ⟨hcn, hcs⟩ :=
          replaceSingleOffset_ok_content raw (off + 4) t raw1 w hrso
        have hframe := dynLoop_frame t va rest raw1 (off + 8) raw' h
          (by omega) (by omega)
        intro i hi
        cases i with
        | zero =>
          have hget : (tag :: rest).get ⟨0, hi⟩ = tag := rfl
          have hpres : ∀ q, off + 4 ≤ q → q < off + 4 + 4 →
              byteAt raw' q = byteAt raw1 q := by
            intro q h1 h2
            exact hframe.2 q (fun j hj => by omega)
          refine ⟨fun _ => ?_, fun h5 => ?_, fun h1 _ h14 h15 => ?_⟩
          · constructor
            · intro r hr
              have heq : raw1 = writeBytesAt raw (off + 4)
                  (le32Bytes r.newOffset) := by
                apply hcs
                simpa using hr
              have hch : chunkN raw' (off + 8 * 0 + 4) 4 =
                  chunkN raw1 (off + 8 * 0 + 4) 4 :=
                chunkN_congr _ _ _ _ (fun q hq1 hq2 => hpres q
                  (by omega) (by omega))
              rw [hch]
              simp only [Nat.mul_zero, Nat.add_zero] at *
              rw [heq]
              have := chunkN_writeBytesAt_self raw (off + 4)
                (le32Bytes r.newOffset) (by omega)
              rw [le32Bytes_length] at this
              exact this
            · intro hnone
              have heq : raw1 = raw := by
                apply hcn
                simpa using hnone
              have hch : chunkN raw' (off + 8 * 0 + 4) 4 =
                  chunkN raw1 (off + 8 * 0 + 4) 4 :=
                chunkN_congr _ _ _ _ (fun q hq1 hq2 => hpres q
                  (by omega) (by omega))
              rw [hch, heq]
          · rw [hget] at h5
            rcases htag with hq | hq | hq <;> omega
          · rw [hget] at h1 h14 h15
            rcases htag with hq | hq | hq <;> omega
        | succ i' =>
          have hstep : ∀ q, off + 8 ≤ q → byteAt raw1 q = byteAt raw q := by
            intro q hq
            exact hfr1 q (by omega)
          have hih := ih raw1 (off + 8) raw' h (by omega) (by omega) i'
            (by simpa using Nat.lt_of_succ_lt_succ hi)
          have harith : off + 8 + 8 * i' + 4 = off + 8 * (i' + 1) + 4 := by
            ring
          rw [harith] at hih
          have hread : readLE32 raw1 (off + 8 * (i' + 1) + 4) =
              readLE32 raw (off + 8 * (i' + 1) + 4) :=
            readLE32_congr _ _ _ (fun q hq1 _ => hstep q (by omega))
          have hchunk : chunkN raw1 (off + 8 * (i' + 1) + 4) 4 =
              chunkN raw (off + 8 * (i' + 1) + 4) 4 :=
            chunkN_congr _ _ _ _ (fun q hq1 _ => hstep q (by omega))
          rw [hread, hchunk] at hih
          exact hih
    · rename_i hcond
      split at h
      · rename_i hc5
        have htag5 : tag = 5 := by simpa using hc5
        have hw : off + 4 ≤ raw.length := by omega
        have hlen1 : (writeBytesAt raw (off + 4) (le32Bytes va)).length =
            raw.length := by
          rw [length_writeBytesAt _ _ _ hw, le32Bytes_length]
          omega
        have hframe := dynLoop_frame t va rest _ (off + 8) raw' h
          (by omega) (by omega)
        intro i hi
        cases i with
        | zero =>
          have hget : (tag :: rest).get ⟨0, hi⟩ = tag := rfl
          refine ⟨fun h1 => ?_, fun _ => ?_, fun h1 h5 h14 h15 => ?_⟩
          · rw [hget, htag5] at h1
            omega
          · have hpres : ∀ q, off + 4 ≤ q → q < off + 4 + 4 →
                byteAt raw' q =
                  byteAt (writeBytesAt raw (off + 4) (le32Bytes va)) q := by
              intro q h1 h2
              exact hframe.2 q (fun j hj => by omega)
            have hch : chunkN raw' (off + 8 * 0 + 4) 4 =
                chunkN (writeBytesAt raw (off + 4) (le32Bytes va))
                  (off + 8 * 0 + 4) 4 :=
              chunkN_congr _ _ _ _ (fun q hq1 hq2 => hpres q
                (by omega) (by omega))
            rw [hch]
            simp only [Nat.mul_zero, Nat.add_zero]
            have := chunkN_writeBytesAt_self raw (off + 4)
              (le32Bytes va) (by omega)
            rw [le32Bytes_length] at this
            exact this
          · rw [hget, htag5] at h5
            omega
        | succ i' =>
          have hstep : ∀ q, off + 8 ≤ q →
              byteAt (writeBytesAt raw (off + 4) (le32Bytes va)) q =
                byteAt raw q := by
            intro q hq
            exact byteAt_writeBytesAt_ge _ _ _ _ hw
              (by rw [le32Bytes_length]; omega)
          have hih := ih _ (off + 8) raw' h (by omega) (by omega) i'
            (by simpa using Nat.lt_of_succ_lt_succ hi)
          have harith : off + 8 + 8 * i' + 4 = off + 8 * (i' + 1) + 4 := by
            ring
          rw [harith] at hih
          have hread : readLE32 (writeBytesAt raw (off + 4) (le32Bytes va))
              (off + 8 * (i' + 1) + 4) =
              readLE32 raw (off + 8 * (i' + 1) + 4) :=
            readLE32_congr _ _ _ (fun q hq1 _ => hstep q (by omega))
          have hchunk : chunkN (writeBytesAt raw (off + 4) (le32Bytes va))
              (off + 8 * (i' + 1) + 4) 4 =
              chunkN raw (off + 8 * (i' + 1) + 4) 4 :=
            chunkN_congr _ _ _ _ (fun q hq1 _ => hstep q (by omega))
          rw [hread, hchunk] at hih
          exact hih
      · rename_i hc5
        have htagn : tag ≠ 1 ∧ tag ≠ 14 ∧ tag ≠ 15 := by
          simp at hcond
          tauto
        have htag5 : tag ≠ 5 := by simpa using hc5
        have hframe := dynLoop_frame t va rest raw (off + 8) raw' h
          (by omega) (by omega)
        intro i hi
        cases i with
        | zero =>
          have hget : (tag :: rest).get ⟨0, hi⟩ = tag := rfl
          have hch : chunkN raw' (off + 8 * 0 + 4) 4 =
              chunkN raw (off + 8 * 0 + 4) 4 :=
            chunkN_congr _ _ _ _ (fun q hq1 hq2 =>
              hframe.2 q (fun j hj => by omega))
          refine ⟨fun h1 => ?_, fun h5 => ?_, fun _ _ _ _ => hch⟩
          · rw [hget] at h1
            obtain ⟨hn1, hn14, hn15⟩ := htagn
            rcases h1 with hq | hq | hq <;> omega
          · rw [hget] at h5
            exact absurd h5 htag5
        | succ i' =>
          have hih := ih raw (off + 8) raw' h (by omega) (by omega) i'
            (by simpa using Nat.lt_of_succ_lt_succ hi)
          have harith : off + 8 + 8 * i' + 4 = off + 8 * (i' + 1) + 4 := by
            ring
          rw [harith] at hih
          exact hih

/-- C4: the dynamic table patch loop, on success, treats every entry by
its tag: tags 1, 14 and 15 have the 4-byte value field (at offset 4 of
the 8-byte entry) patched through the replacement lookup on the value it
held, tag 5 has the value field overwritten with the new
virtual address of the string table, and entries with any other tag, as well as every byte
outside the visited value fields, are left unmodified. -/
theorem replaceDynamicTableStrings_tag_dispatch
    (t : replacedStringTable) (va : Nat) (tags raw : List Nat) (off : Nat)
    (raw' : List Nat)
    (hok : dynLoop t va tags raw off = .ok raw')
    (hb : off + 8 * tags.length ≤ raw.length)
    (hm : off + 8 * tags.length < m32) :
    raw'.length = raw.length ∧
    (∀ i, (hi : i < tags.length) →
      ((tags.get ⟨i, hi⟩ = 1 ∨ tags.get ⟨i, hi⟩ = 14 ∨
          tags.get ⟨i, hi⟩ = 15) →
        (∀ r, t.replacements.find? (fun x =>
            x.originalOffset == readLE32 raw (off + 8 * i + 4)) = some r →
          chunkN raw' (off + 8 * i + 4) 4 = le32Bytes r.newOffset) ∧
        (t.replacements.find? (fun x =>
            x.originalOffset == readLE32 raw (off + 8 * i + 4)) = none →
          chunkN raw' (off + 8 * i + 4) 4 =
            chunkN raw (off + 8 * i + 4) 4)) ∧
      (tags.get ⟨i, hi⟩ = 5 →
        chunkN raw' (off + 8 * i + 4) 4 = le32Bytes va) ∧
      (tags.get ⟨i, hi⟩ ≠ 1 → tags.get ⟨i, hi⟩ ≠ 5 →
        tags.get ⟨i, hi⟩ ≠ 14 → tags.get ⟨i, hi⟩ ≠ 15 →
        chunkN raw' (off + 8 * i + 4) 4 =
          chunkN raw (off + 8 * i + 4) 4)) ∧
    (∀ p, (∀ i, i < tags.length → p < off + 8 * i + 4 ∨
        off + 8 * i + 8 ≤ p) → byteAt raw' p = byteAt raw p) :=
  ⟨(dynLoop_frame t va tags raw off raw' hok hb hm).1,
   dynLoop_entry t va tags raw off raw' hok hb hm,
   (dynLoop_frame t va tags raw off raw' hok hb hm).2⟩

theorem replaceDynamicTableStrings_tag_dispatch_witness :
    dynLoop c4table 4096 c4tags c4raw 0 = .ok c4out ∧
    (c4out.length = c4raw.length ∧
    (∀ i, (hi : i < c4tags.length) →
      ((c4tags.get ⟨i, hi⟩ = 1 ∨ c4tags.get ⟨i, hi⟩ = 14 ∨
          c4tags.get ⟨i, hi⟩ = 15) →
        (∀ r, c4table.replacements.find? (fun x =>
            x.originalOffset == readLE32 c4raw (0 + 8 * i + 4)) = some r →
          chunkN c4out (0 + 8 * i + 4) 4 = le32Bytes r.newOffset) ∧
        (c4table.replacements.find? (fun x =>
            x.originalOffset == readLE32 c4raw (0 + 8 * i + 4)) = none →
          chunkN c4out (0 + 8 * i + 4) 4 =
            chunkN c4raw (0 + 8 * i + 4) 4)) ∧
      (c4tags.get ⟨i, hi⟩ = 5 →
        chunkN c4out (0 + 8 * i + 4) 4 = le32Bytes 4096) ∧
      (c4tags.get ⟨i, hi⟩ ≠ 1 → c4tags.get ⟨i, hi⟩ ≠ 5 →
        c4tags.get ⟨i, hi⟩ ≠ 14 → c4tags.get ⟨i, hi⟩ ≠ 15 →
        chunkN c4out (0 + 8 * i + 4) 4 =
          chunkN c4raw (0 + 8 * i + 4) 4)) ∧
    (∀ p, (∀ i, i < c4tags.length → p < 0 + 8 * i + 4 ∨
        0 + 8 * i + 8 ≤ p) → byteAt c4out p = byteAt c4raw p)) :=
  ⟨by rfl, replaceDynamicTableStrings_tag_dispatch c4table 4096 c4tags
    c4raw 0 c4out (by rfl) (by decide) (by decide)⟩

theorem set_append_last {α : Type} (l : List α) (x y : α) :
    (l ++ [x]).set l.length y = l ++ [y] := by
  induction l with
  | nil => rfl
  | cons a t ih => simp [List.set, ih]

theorem updateFirstPH_no_match (off va sz : Nat) :
    ∀ l : List ELF32ProgramHeader,
      (∀ s ∈ l, s.typ ≠ programHeaderSegmentType) →
      updateFirstPH off va sz l = l := by
  intro l
  induction l with
  | nil => intro _; rfl
  | cons s rest ih =>
    intro h
    simp only [updateFirstPH]
    rw [if_neg (h s (by simp))]
    rw [ih (fun q hq => h q (by simp [hq]))]

theorem relocate_ok_segments (f : ELF32File) (t0 : replacedStringTable)
    (ts : List replacedStringTable) (rp : List Nat → Bool)
    (f' : ELF32File) (tbls' : List replacedStringTable)
    (hok : relocateStringTables f (t0 :: ts) rp = .ok (f', tbls')) :
    ∃ seg1 off va sz, seg1.typ = loadableSegmentType ∧
      f'.segments = updateFirstPH off va sz (f.segments ++ [seg1]) := by
  simp only [relocateStringTables] at hok
  split at hok
  · cases hok
  · cases hok
  · rename_i endVA hva
    split at hok
    · cases hok
    · cases hok
    · rename_i raw1 secs1 tbls1 curOff curVA hloop
      simp only [relocateFinish, relocateWriteTail] at hok
      split at hok
      · rename_i hrp
        cases hok
        rw [List.length_append, List.length_cons, List.length_nil,
          Nat.add_sub_cancel, set_append_last]
        exact ⟨_, _, _, _, rfl, rfl⟩
      · cases hok

/-- C5 counterexample: a binary whose segment list contains no segment of
the program header table type, together with a non-empty delta list, on
which relocateStringTables completes successfully instead of returning a
fatal error. -/
theorem relocate_no_ph_segment_counterexample :
    c5file.segments = [] ∧
    ([c5table] : List replacedStringTable).length = 1 ∧
    (relocateStringTables c5file [c5table] (fun _ => true)).isOk = true := by
  exact ⟨rfl, rfl, by rfl⟩

/-- C5 (amended): when no segment of the program-header-table type exists
among the segments of the binary, the current relocateStringTables does not
return an error for that reason: the search loop finds nothing, every
pre-existing segment entry is left unmodified, and relocation continues,
only appending the one new loadable segment (the earlier variant of the
relocator returned a fatal error here instead). -/
theorem relocate_missing_ph_segment (f : ELF32File)
    (t0 : replacedStringTable) (ts : List replacedStringTable)
    (rp : List Nat → Bool) (f' : ELF32File)
    (tbls' : List replacedStringTable)
    (hok : relocateStringTables f (t0 :: ts) rp = .ok (f', tbls'))
    (hnoph : ∀ s ∈ f.segments, s.typ ≠ programHeaderSegmentType) :
    f'.segments.take f.segments.length = f.segments ∧
    f'.segments.length = f.segments.length + 1 := by
  obtain ⟨seg1, off, va, sz, hseg1, hsegs⟩ :=
    relocate_ok_segments f t0 ts rp f' tbls' hok
  have hno : ∀ s ∈ f.segments ++ [seg1],
      s.typ ≠ programHeaderSegmentType := by
    intro s hs
    rcases List.mem_append.mp hs with h | h
    · exact hnoph s h
    · simp at h
      subst h
      rw [hseg1]
      simp [loadableSegmentType, programHeaderSegmentType]
  rw [updateFirstPH_no_match off va sz _ hno] at hsegs
  rw [hsegs]
  constructor
  · exact List.take_left _ _
  · simp

theorem relocate_missing_ph_segment_witness :
    c5out.1.segments.take c5file.segments.length = c5file.segments ∧
    c5out.1.segments.length = c5file.segments.length + 1 :=
  relocate_missing_ph_segment c5file c5table [] (fun _ => true) c5out.1
    c5out.2 (by rfl) (by simp [c5file])

theorem length_writeBytesAt_general (raw : List Nat) (off : Nat)
    (bs : List Nat) :
    (writeBytesAt raw off bs).length = max raw.length (off + bs.length) := by
  unfold writeBytesAt
  simp [List.length_take, List.length_drop]
  omega

theorem serializeSections_length (l : List ELF32SectionHeader) :
    (serializeSections l).length = 40 * l.length := by
  induction l with
  | nil => rfl
  | cons s rest ih =>
    simp [serializeSections, serializeSectionHeader, le32Bytes] at ih ⊢
    omega

theorem serializeSegments_length (l : List ELF32ProgramHeader) :
    (serializeSegments l).length = 32 * l.length := by
  induction l with
  | nil => rfl
  | cons s rest ih =>
    simp [serializeSegments, serializeProgramHeader, le32Bytes] at ih ⊢
    omega

theorem updateFirstPH_length (off va sz : Nat) :
    ∀ l : List ELF32ProgramHeader,
      (updateFirstPH off va sz l).length = l.length := by
  intro l
  induction l with
  | nil => rfl
  | cons s rest ih =>
    simp only [updateFirstPH]
    split
    · simp
    · simp [ih]

theorem le16Bytes_mod (x : Nat) : le16Bytes (x % 65536) = le16Bytes x := by
  unfold le16Bytes
  have h1 : x % 65536 % 256 = x % 256 := by omega
  have h2 : x % 65536 / 256 % 256 = x / 256 % 256 := by omega
  rw [h1, h2]

theorem relocateLoop_ok (tbls : List replacedStringTable) :
    ∀ (raw : List Nat) (secs : List ELF32SectionHeader) (curVA : Nat),
      (∀ t_ ∈ tbls, t_.sectionIndex < secs.length) →
      raw.length + totalNewLen tbls < m32 →
      ∃ secs1 tbls1 curVA1,
        relocateLoop raw secs tbls raw.length curVA =
          .ok (raw ++ (tbls.map (fun t => t.newContent)).flatten, secs1,
            tbls1, raw.length + totalNewLen tbls, curVA1) ∧
        secs1.length = secs.length := by
  induction tbls with
  | nil =>
    intro raw secs curVA _ _
    exact ⟨secs, [], curVA, by simp [relocateLoop, totalNewLen], rfl⟩
  | cons t rest ih =>
    intro raw secs curVA hvalid hsmall
    have htot : totalNewLen (t :: rest) =
        t.newContent.length + totalNewLen rest := by
      simp [totalNewLen]
    have hncl : t.newContent.length % m32 = t.newContent.length := by
      apply Nat.mod_eq_of_lt
      omega
    have hoff : add32 raw.length (t.newContent.length % m32) =
        (raw ++ t.newContent).length := by
      rw [hncl]
      unfold add32
      rw [Nat.mod_eq_of_lt (by omega)]
      simp
    obtain ⟨s, hs⟩ : ∃ s, secs.get? t.sectionIndex = some s := by
      have := hvalid t (by simp)
      exact ⟨secs.get ⟨t.sectionIndex, this⟩, List.get?_eq_get this⟩
    obtain ⟨secs1, tbls1, curVA1, hrec, hlen1⟩ :=
      ih (raw ++ t.newContent)
        (secs.set t.sectionIndex { s with
          virtualAddress := curVA
          fileOffset := raw.length
          size := t.newContent.length % m32 })
        (add32 curVA (t.newContent.length % m32))
        (fun q hq => by
          rw [List.length_set]
          exact hvalid q (by simp [hq]))
        (by simp; omega)
    refine ⟨secs1, { t with
        newFileOffset := raw.length
        newVirtualAddress := curVA } :: tbls1, curVA1, ?_,
      by rw [hlen1, List.length_set]⟩
    simp only [relocateLoop, hs, hoff, hrec]
    have harr : (raw ++ t.newContent) ++
        (rest.map (fun u => u.newContent)).flatten =
        raw ++ ((t :: rest).map (fun u => u.newContent)).flatten := by
      simp
    have hsum : (raw ++ t.newContent).length + totalNewLen rest =
        raw.length + totalNewLen (t :: rest) := by
      simp [htot]
      omega
    rw [harr, hsum]

theorem relocateWriteTail_fields (f : ELF32File)
    (tbls1 : List replacedStringTable) (secs1 : List ELF32SectionHeader)
    (raw3 : List Nat) (curOff2 : Nat) (segs3 : List ELF32ProgramHeader)
    (rp : List Nat → Bool) (f' : ELF32File)
    (tbls' : List replacedStringTable)
    (hok : relocateWriteTail f tbls1 secs1 raw3 curOff2 segs3 rp =
      .ok (f', tbls'))
    (hle : curOff2 ≤ raw3.length) (h52 : 52 ≤ curOff2) :
    f'.segments = segs3 ∧ f'.sections = secs1 ∧ tbls' = tbls1 ∧
    chunkN f'.raw 28 4 = le32Bytes curOff2 ∧
    chunkN f'.raw 44 2 = le16Bytes segs3.length ∧
    chunkN f'.raw curOff2 (32 * segs3.length) = serializeSegments segs3 := by
  simp only [relocateWriteTail] at hok
  split at hok
  · cases hok
    have hlen4 : (writeBytesAt raw3 curOff2 (serializeSegments segs3)).length
        = max raw3.length (curOff2 + 32 * segs3.length) := by
      rw [length_writeBytesAt_general, serializeSegments_length]
    have h3le4 : raw3.length ≤
        (writeBytesAt raw3 curOff2 (serializeSegments segs3)).length := by
      rw [hlen4]
      omega
    have hA : chunkN (writeBytesAt raw3 curOff2 (serializeSegments segs3))
        curOff2 (32 * segs3.length) = serializeSegments segs3 := by
      have := chunkN_writeBytesAt_self raw3 curOff2
        (serializeSegments segs3) hle
      rw [serializeSegments_length] at this
      exact this
    have h28le : 28 ≤ (writeBytesAt raw3 curOff2
        (serializeSegments segs3)).length := by omega
    have hlen5 : (writeBytesAt (writeBytesAt raw3 curOff2
        (serializeSegments segs3)) 28 (le32Bytes curOff2)).length =
        (writeBytesAt raw3 curOff2 (serializeSegments segs3)).length := by
      rw [length_writeBytesAt_general, le32Bytes_length]
      omega
    have hB : chunkN (writeBytesAt (writeBytesAt raw3 curOff2
        (serializeSegments segs3)) 28 (le32Bytes curOff2)) 28 4 =
        le32Bytes curOff2 := by
      have := chunkN_writeBytesAt_self (writeBytesAt raw3 curOff2
        (serializeSegments segs3)) 28 (le32Bytes curOff2) h28le
      rw [le32Bytes_length] at this
      exact this
    have hC : chunkN (writeBytesAt (writeBytesAt raw3 curOff2
        (serializeSegments segs3)) 28 (le32Bytes curOff2)) curOff2
        (32 * segs3.length) = serializeSegments segs3 := by
      have hstep : chunkN (writeBytesAt (writeBytesAt raw3 curOff2
          (serializeSegments segs3)) 28 (le32Bytes curOff2)) curOff2
          (32 * segs3.length) = chunkN (writeBytesAt raw3 curOff2
          (serializeSegments segs3)) curOff2 (32 * segs3.length) := by
        apply chunkN_congr
        intro p hp1 _
        apply byteAt_writeBytesAt_ge _ _ _ _ h28le
        rw [le32Bytes_length]
        omega
      rw [hstep, hA]
    have h44le : 44 ≤ (writeBytesAt (writeBytesAt raw3 curOff2
        (serializeSegments segs3)) 28 (le32Bytes curOff2)).length := by
      omega
    refine ⟨rfl, rfl, rfl, ?_, ?_, ?_⟩
    · have hstep : chunkN (writeBytesAt (writeBytesAt (writeBytesAt raw3
          curOff2 (serializeSegments segs3)) 28 (le32Bytes curOff2)) 44
          (le16Bytes (segs3.length % 65536))) 28 4 =
          chunkN (writeBytesAt (writeBytesAt raw3 curOff2
          (serializeSegments segs3)) 28 (le32Bytes curOff2)) 28 4 := by
        apply chunkN_congr
        intro p hp1 hp2
        apply byteAt_writeBytesAt_lt _ _ _ _ h44le
        omega
      rw [hstep, hB]
    · have := chunkN_writeBytesAt_self (writeBytesAt (writeBytesAt raw3
        curOff2 (serializeSegments segs3)) 28 (le32Bytes curOff2)) 44
        (le16Bytes (segs3.length % 65536)) h44le
      rw [le16Bytes_length] at this
      rw [this, le16Bytes_mod]
    · have hstep : chunkN (writeBytesAt (writeBytesAt (writeBytesAt raw3
          curOff2 (serializeSegments segs3)) 28 (le32Bytes curOff2)) 44
          (le16Bytes (segs3.length % 65536))) curOff2 (32 * segs3.length) =
          chunkN (writeBytesAt (writeBytesAt raw3 curOff2
          (serializeSegments segs3)) 28 (le32Bytes curOff2)) curOff2
          (32 * segs3.length) := by
        apply chunkN_congr
        intro p hp1 _
        apply byteAt_writeBytesAt_ge _ _ _ _ h44le
        rw [le16Bytes_length]
        omega
      rw [hstep, hC]
  · cases hok

theorem relocateFinish_fields (f : ELF32File)
    (tbls1 : List replacedStringTable) (secs1 : List ELF32SectionHeader)
    (raw1 : List Nat) (endOff endVA curVA : Nat) (rp : List Nat → Bool)
    (f' : ELF32File) (tbls' : List replacedStringTable)
    (hok : relocateFinish f tbls1 secs1 raw1 endOff endVA raw1.length
      curVA rp = .ok (f', tbls'))
    (h52 : 52 ≤ raw1.length)
    (hsmall : raw1.length + 8 < m32) :
    ∃ phOff, raw1.length ≤ phOff ∧
      chunkN f'.raw 28 4 = le32Bytes phOff ∧
      chunkN f'.raw 44 2 = le16Bytes f'.segments.length ∧
      chunkN f'.raw phOff (32 * f'.segments.length) =
        serializeSegments f'.segments ∧
      f'.segments.length = f.segments.length + 1 ∧
      f'.sections = secs1 ∧ tbls' = tbls1 := by
  simp only [relocateFinish] at hok
  have hpadlt : (8 - (writeBytesAt raw1 f.header.sectionHeaderOffset
      (serializeSections secs1)).length % 8) % 8 < 8 :=
    Nat.mod_lt _ (by omega)
  have hmod : (raw1.length + (8 - (writeBytesAt raw1
      f.header.sectionHeaderOffset (serializeSections secs1)).length % 8)
      % 8) % m32 = raw1.length + (8 - (writeBytesAt raw1
      f.header.sectionHeaderOffset (serializeSections secs1)).length % 8)
      % 8 := by
    apply Nat.mod_eq_of_lt
    omega
  rw [hmod] at hok
  have h1le2 : raw1.length ≤ (writeBytesAt raw1
      f.header.sectionHeaderOffset (serializeSections secs1)).length := by
    rw [length_writeBytesAt_general]
    omega
  have hle : raw1.length + (8 - (writeBytesAt raw1
      f.header.sectionHeaderOffset (serializeSections secs1)).length % 8)
      % 8 ≤ ((writeBytesAt raw1 f.header.sectionHeaderOffset
      (serializeSections secs1)) ++ List.replicate ((8 - (writeBytesAt raw1
      f.header.sectionHeaderOffset (serializeSections secs1)).length % 8)
      % 8) 0).length := by
    rw [List.length_append, List.length_replicate]
    omega
  obtain ⟨hsegs, hsecs, htbls, hf28, hf44, hfph⟩ :=
    relocateWriteTail_fields f tbls1 secs1 _ _ _ rp f' tbls' hok hle
      (by omega)
  have hseglen : f'.segments.length = f.segments.length + 1 := by
    rw [hsegs, updateFirstPH_length, List.length_set, List.length_append]
    simp
  refine ⟨raw1.length + (8 - (writeBytesAt raw1
      f.header.sectionHeaderOffset (serializeSections secs1)).length % 8)
      % 8, by omega, hf28, ?_, ?_, hseglen, hsecs, htbls⟩
  · rw [hsegs]
    exact hf44
  · rw [hsegs]
    exact hfph

/-- C6: after a successful relocation with a non-empty delta list, the
4-byte field at byte 28 of the ELF header holds the file offset of the
newly appended program header table (a position at or past the old end
of file, where the serialized segment table of the result lives), the
2-byte field at byte 44 holds the new number of segments, and that
number counts the newly created loadable segment on top of the old
ones. -/
theorem relocate_header_fields (f : ELF32File) (t0 : replacedStringTable)
    (ts : List replacedStringTable) (rp : List Nat → Bool)
    (f' : ELF32File) (tbls' : List replacedStringTable)
    (hok : relocateStringTables f (t0 :: ts) rp = .ok (f', tbls'))
    (hlen : 52 ≤ f.raw.length)
    (hvalid : ∀ t_ ∈ t0 :: ts, t_.sectionIndex < f.sections.length)
    (hsmall : f.raw.length + totalNewLen (t0 :: ts) + 16 < m32) :
    ∃ phOff, f.raw.length ≤ phOff ∧
      chunkN f'.raw 28 4 = le32Bytes phOff ∧
      chunkN f'.raw 44 2 = le16Bytes f'.segments.length ∧
      chunkN f'.raw phOff (32 * f'.segments.length) =
        serializeSegments f'.segments ∧
      f'.segments.length = f.segments.length + 1 := by
  have hpad : f.raw.length ≤ (pad8 f.raw).length ∧
      (pad8 f.raw).length ≤ f.raw.length + 7 := by
    unfold pad8
    rw [List.length_append, List.length_replicate]
    omega
  have hend : (pad8 f.raw).length % m32 = (pad8 f.raw).length := by
    apply Nat.mod_eq_of_lt
    omega
  have hflat : ((t0 :: ts).map (fun t => t.newContent)).flatten.length =
      totalNewLen (t0 :: ts) := by
    simp only [totalNewLen, List.length_flatten, List.map_map]
    congr 1
  simp only [relocateStringTables] at hok
  rw [hend] at hok
  split at hok
  · cases hok
  · cases hok
  · rename_i endVA hva
    split at hok
    · cases hok
    · cases hok
    · rename_i raw1 secs1 tbls1 curOff curVA hloop
      obtain ⟨secs1', tbls1', curVA1', hrec, hlen1'⟩ :=
        relocateLoop_ok (t0 :: ts) (pad8 f.raw) f.sections endVA hvalid
          (by omega)
      rw [hrec] at hloop
      simp only [GRes.ok.injEq, Prod.mk.injEq] at hloop
      obtain ⟨hraw1, hsecs1, htbls1, hcur, hva1⟩ := hloop
      have hraw1len : raw1.length =
          (pad8 f.raw).length + totalNewLen (t0 :: ts) := by
        rw [← hraw1, List.length_append, hflat]
      have hcur' : curOff = raw1.length := by omega
      rw [hcur'] at hok
      obtain ⟨phOff, hge, h28, h44, hph, hslen, _, _⟩ :=
        relocateFinish_fields f tbls1 secs1 raw1 (pad8 f.raw).length endVA
          curVA rp f' tbls' hok (by omega) (by omega)
      exact ⟨phOff, by omega, h28, h44, hph, hslen⟩

theorem relocate_header_fields_witness :
    ∃ phOff, c5file.raw.length ≤ phOff ∧
      chunkN c6res.1.raw 28 4 = le32Bytes phOff ∧
      chunkN c6res.1.raw 44 2 = le16Bytes c6res.1.segments.length ∧
      chunkN c6res.1.raw phOff (32 * c6res.1.segments.length) =
        serializeSegments c6res.1.segments ∧
      c6res.1.segments.length = c5file.segments.length + 1 :=
  relocate_header_fields c5file c5table [] (fun _ => true) c6res.1 c6res.2
    (by rfl) (by decide) (by decide) (by decide)

theorem symSectionsLoop_nil :
    ∀ (secs : List ELF32SectionHeader) (raw : List Nat),
      symSectionsLoop [] secs raw = .ok raw := by
  intro secs
  induction secs with
  | nil => intro raw; rfl
  | cons s rest ih =>
    intro raw
    simp only [symSectionsLoop]
    split
    · exact ih raw
    · exact ih raw

theorem replaceVersionRequirementStrings_nil (f : ELF32File)
    (parseVR : Nat → Except Err (List (VerNeed × List VerAux))) :
    replaceVersionRequirementStrings f [] parseVR = .ok f.raw := by
  unfold replaceVersionRequirementStrings
  cases h : f.sections.enum.find? (fun p => isVersionRequirementSection p.2)
      with
  | none => rfl
  | some p =>
    obtain ⟨i, s⟩ := p
    rfl

theorem replaceDynamicTableStrings_nil (f : ELF32File)
    (getDynTags : Nat → Except Err (List Nat)) :
    replaceDynamicTableStrings f [] getDynTags = .ok f.raw := by
  unfold replaceDynamicTableStrings
  cases h : f.sections.enum.find? (fun p => isDynamicSection p.2) with
  | none => rfl
  | some p =>
    obtain ⟨i, s⟩ := p
    rfl

theorem updateStringReferences_nil (f : ELF32File)
    (parseVR : Nat → Except Err (List (VerNeed × List VerAux)))
    (getDynTags : Nat → Except Err (List Nat))
    (reparse : List Nat → Bool) (hrp : reparse f.raw = true) :
    updateStringReferences f [] parseVR getDynTags reparse = .ok f := by
  have h2 : ∀ g : ELF32File, replaceSymbolNames g [] = .ok g.raw := by
    intro g
    unfold replaceSymbolNames
    exact symSectionsLoop_nil g.sections g.raw
  have h1 : replaceSectionNames f [] = .ok f.raw := rfl
  simp only [updateStringReferences, h1, h2, replaceVersionDefinitionStrings,
    replaceVersionRequirementStrings_nil, replaceDynamicTableStrings_nil,
    hrp, if_true]

/-- C8: when the pattern matches nothing, the pipeline is a no-op: the
diff builder reports no change for every table (delta list empty), the
relocator returns immediately with the file untouched (no bytes
appended, no segments added), and the reference patcher rewrites
nothing, returning the object model with the raw buffer equal to the
unmodified input. -/
theorem pipeline_noop_on_empty (repl : List Nat → List Nat)
    (old : List Nat) (f : ELF32File)
    (parseVR : Nat → Except Err (List (VerNeed × List VerAux)))
    (getDynTags : Nat → Except Err (List Nat))
    (reparse : List Nat → Bool)
    (hfix : ∀ p ∈ splitOnNul old, repl p = p)
    (hrp : reparse f.raw = true) :
    doReplacements repl old = .ok none ∧
    relocateStringTables f [] reparse = .ok (f, []) ∧
    updateStringReferences f [] parseVR getDynTags reparse = .ok f := by
  refine ⟨?_, rfl, updateStringReferences_nil f parseVR getDynTags
    reparse hrp⟩
  simp only [doReplacements, doRepLoop_fixed repl (splitOnNul old) hfix]
  simp

theorem pipeline_noop_on_empty_witness :
    doReplacements (fun p : List Nat => p) [0] = .ok none ∧
    relocateStringTables c5file [] (fun _ => true) = .ok (c5file, []) ∧
    updateStringReferences c5file [] (fun _ => .ok [])
      (fun _ => .ok []) (fun _ => true) = .ok c5file :=
  pipeline_noop_on_empty (fun p => p) [0] c5file (fun _ => .ok [])
    (fun _ => .ok []) (fun _ => true) (by simp) (by rfl)

/-- C9: the orchestrator writes the output only after the whole pipeline
succeeded: the output bytes exist exactly when the exit code is zero,
and a zero exit code certifies that argument validation, pattern
compilation, input reading, parsing, replacement, relocation, reference
patching and the final write all succeeded, the written bytes being the
raw buffer of the fully patched object model; every failure yields a
nonzero exit code and no output. -/
theorem run_writes_only_on_success
    (inputFile outputFile matchRegex replacement : String)
    (compile : String → Option (List Nat → List Nat))
    (readInput : Option (List Nat))
    (parseELF : List Nat → Option ELF32File)
    (parseVR : Nat → Except Err (List (VerNeed × List VerAux)))
    (getDynTags : Nat → Except Err (List Nat))
    (reparse : List Nat → Bool) (writeOk : Bool)
    (code : Nat) (written : Option (List Nat))
    (hrun : run inputFile outputFile matchRegex replacement compile
      readInput parseELF parseVR getDynTags reparse writeOk =
      (code, written)) :
    (written.isSome ↔ code = 0) ∧
    (code = 0 →
      ∃ repl rawInput elf reps elf2 reps2 elf3,
        inputFile ≠ "" ∧ outputFile ≠ "" ∧ matchRegex ≠ "" ∧
        replacement ≠ "" ∧
        compile matchRegex = some repl ∧ readInput = some rawInput ∧
        parseELF rawInput = some elf ∧
        processReplacements elf repl = .ok reps ∧
        relocateStringTables elf reps reparse = .ok (elf2, reps2) ∧
        updateStringReferences elf2 reps2 parseVR getDynTags reparse =
          .ok elf3 ∧
        writeOk = true ∧ written = some elf3.raw) := by
  by_cases hargs : inputFile = "" ∨ outputFile = "" ∨ matchRegex = "" ∨
      replacement = ""
  · simp only [run, if_pos hargs] at hrun
    cases hrun
    simp
  · simp only [run, if_neg hargs] at hrun
    cases hcompile : compile matchRegex with
    | none =>
      simp only [hcompile] at hrun
      cases hrun
      simp
    | some repl =>
      simp only [hcompile] at hrun
      cases hread : readInput with
      | none =>
        simp only [hread] at hrun
        cases hrun
        simp
      | some rawInput =>
        simp only [hread] at hrun
        cases hparse : parseELF rawInput with
        | none =>
          simp only [hparse] at hrun
          cases hrun
          simp
        | some elf =>
          simp only [hparse] at hrun
          cases hproc : processReplacements elf repl with
          | error e =>
            simp only [hproc] at hrun
            cases hrun
            simp
          | ok reps =>
            simp only [hproc] at hrun
            cases hrel : relocateStringTables elf reps reparse with
            | crashed =>
              simp only [hrel] at hrun
              cases hrun
              simp
            | err e =>
              simp only [hrel] at hrun
              cases hrun
              simp
            | ok pr =>
              obtain ⟨elf2, reps2⟩ := pr
              simp only [hrel] at hrun
              cases hupd : updateStringReferences elf2 reps2 parseVR
                  getDynTags reparse with
              | error e =>
                simp only [hupd] at hrun
                cases hrun
                simp
              | ok elf3 =>
                simp only [hupd] at hrun
                cases writeOk with
                | false =>
                  simp only [Bool.false_eq_true, if_false] at hrun
                  cases hrun
                  simp
                | true =>
                  simp only [if_true] at hrun
                  cases hrun
                  constructor
                  · simp
                  · intro _
                    push_neg at hargs
                    exact ⟨repl, rawInput, elf, reps, elf2, reps2, elf3,
                      hargs.1, hargs.2.1, hargs.2.2.1, hargs.2.2.2,
                      rfl, rfl, hparse, hproc, hrel, hupd, rfl, rfl⟩

theorem run_writes_only_on_success_witness :
    ((some c5file.raw : Option (List Nat)).isSome ↔ (0 : Nat) = 0) ∧
    ((0 : Nat) = 0 →
      ∃ repl rawInput elf reps elf2 reps2 elf3,
        ("a" : String) ≠ "" ∧ ("b" : String) ≠ "" ∧ ("c" : String) ≠ "" ∧
        ("d" : String) ≠ "" ∧
        c9compile "c" = some repl ∧
        (some c5file.raw : Option (List Nat)) = some rawInput ∧
        c9parse rawInput = some elf ∧
        processReplacements elf repl = Except.ok reps ∧
        relocateStringTables elf reps c9rp = GRes.ok (elf2, reps2) ∧
        updateStringReferences elf2 reps2 c9pvr c9dyn c9rp =
          Except.ok elf3 ∧
        (true : Bool) = true ∧
        (some c5file.raw : Option (List Nat)) = some elf3.raw) :=
  run_writes_only_on_success "a" "b" "c" "d" c9compile (some c5file.raw)
    c9parse c9pvr c9dyn c9rp true 0 (some c5file.raw) (by rfl)
